import Mathlib

/-!
Shallow embedding of the CVRP optimisation engine (cost model, Clarke-Wright
construction, 2-opt and relocate neighbourhood operators, simulated annealing)
and proofs about it.  Python floats are modelled by `ℚ`, `int` by `ℤ`,
node indices by `ℕ`; the distance matrix is a function `ℕ → ℕ → ℚ`.
Routes are `List ℕ` and a solution is a `List (List ℕ)`.
-/

set_option maxHeartbeats 1000000

namespace VRP

/-- Mirrors `model.Node`: identity, 2D coordinates, integer demand, optional
time-window pair and a service duration. -/
structure Node where
  idx : ℕ
  x : ℚ
  y : ℚ
  demand : ℤ
  tw_open : Option ℚ
  tw_close : Option ℚ
  service : ℚ
  deriving Repr, DecidableEq

instance : Inhabited Node := ⟨⟨0, 0, 0, 0, none, none, 0⟩⟩

/-- Mirrors `model.VRPInstance`. -/
structure VRPInstance where
  depot : Node
  customers : List Node
  vehicle_capacity : ℤ
  num_vehicles : ℕ
  lambda_tw : ℚ
  mu_fair : ℚ
  deriving Repr, DecidableEq

/-- Mirrors `VRPInstance.all_nodes`: depot first, customers after. -/
def VRPInstance.all_nodes (inst : VRPInstance) : List Node :=
  inst.depot :: inst.customers

/-- Python `nodes[i]` (all inputs we consider stay in range; out-of-range
reads return the zero node). -/
def nodeAt (nodes : List Node) (i : ℕ) : Node :=
  nodes.getD i default

/-- Mirrors `model.route_distance`: sum of the consecutive-edge distances,
`0` for routes shorter than two stops. -/
def route_distance : List ℕ → (ℕ → ℕ → ℚ) → ℚ
  | a :: b :: rest, D => D a b + route_distance (b :: rest) D
  | _, _ => 0

/-- Mirrors `model.route_demand`: summed demand of the non-depot stops. -/
def route_demand (route : List ℕ) (nodes : List Node) : ℤ :=
  ((route.filter (fun i => i ≠ 0)).map (fun i => (nodeAt nodes i).demand)).sum

/-- One step of the clock/penalty simulation in `model.time_window_penalty`:
travel the edge, then (only when BOTH window bounds are present) wait to the
open time and record lateness past the close time, then serve. -/
def twStep (nodes : List Node) (D : ℕ → ℕ → ℚ) : (ℚ × ℚ) → (ℕ × ℕ) → (ℚ × ℚ)
  | (t, pen), (a, b) =>
    let t1 := t + D a b
    let nb := nodeAt nodes b
    match nb.tw_open, nb.tw_close with
    | some o, some cl =>
        let t2 := if t1 < o then o else t1
        let pen' := if cl < t2 then pen + (t2 - cl) else pen
        (t2 + nb.service, pen')
    | _, _ => (t1 + nb.service, pen)

/-- Mirrors `model.time_window_penalty`: fold the simulation over the
consecutive edge pairs of the route, starting at clock 0. -/
def time_window_penalty (route : List ℕ) (nodes : List Node) (D : ℕ → ℕ → ℚ) : ℚ :=
  ((route.zip route.tail).foldl (twStep nodes D) (0, 0)).2

/-- Minimum of a list of rationals (`np.min` on a nonempty array). -/
def listMin : List ℚ → ℚ
  | [] => 0
  | [x] => x
  | x :: y :: rest => min x (listMin (y :: rest))

/-- Maximum of a list of rationals (`np.max` on a nonempty array). -/
def listMax : List ℚ → ℚ
  | [] => 0
  | [x] => x
  | x :: y :: rest => max x (listMax (y :: rest))

/-- The `np.linspace a b (nz+1)` grid edges used by `fairness_penalty`. -/
def gridEdges (a b : ℚ) (nz : ℕ) : List ℚ :=
  (List.range (nz + 1)).map (fun j => a + (b - a) * j / nz)

/-- The value of `np.searchsorted(edges, v, side="right")` on a sorted edge
list: the number of edges that are `≤ v`. -/
def searchRight (edges : List ℚ) (v : ℚ) : ℕ :=
  edges.countP (fun e => decide (e ≤ v))

/-- Mirrors `zone_id` inside `model.fairness_penalty` (the `max(., 0)` clamp
is absorbed by truncated `ℕ` subtraction). -/
def zone_id (nodes : List Node) (nz : ℕ) (i : ℕ) : ℕ :=
  min (searchRight (gridEdges (listMin (nodes.map (fun n => n.y)))
      (listMax (nodes.map (fun n => n.y))) nz) (nodeAt nodes i).y - 1) (nz - 1) * nz
    + min (searchRight (gridEdges (listMin (nodes.map (fun n => n.x)))
      (listMax (nodes.map (fun n => n.x))) nz) (nodeAt nodes i).x - 1) (nz - 1)

/-- Population variance of a list of rationals (`np.var`). -/
def popVar (l : List ℚ) : ℚ :=
  (l.map (fun x => (x - l.sum / l.length) ^ 2)).sum / l.length

/-- The zone id of every customer visit of the solution, in route order. -/
def zoneVisits (routes : List (List ℕ)) (nodes : List Node) (nz : ℕ) : List ℕ :=
  routes.flatMap (fun r => (r.filter (fun i => i ≠ 0)).map (zone_id nodes nz))

/-- Mirrors `model.fairness_penalty`: population variance of the per-zone
visit counts held in the `counts` dictionary.  The dictionary's values are,
as a multiset, one count per distinct visited zone; `popVar` only depends on
that multiset, so we enumerate the distinct zones with `dedup`. -/
def fairness_penalty (routes : List (List ℕ)) (nodes : List Node) (nz : ℕ) : ℚ :=
  if nz ≤ 1 then 0
  else if zoneVisits routes nodes nz = [] then 0
  else popVar ((zoneVisits routes nodes nz).dedup.map
    (fun z => ((zoneVisits routes nodes nz).count z : ℚ)))

/-- Mirrors `model.total_cost`: distance plus the guarded weighted penalty
terms (`fairness_penalty` is called with its default `num_zones = 4`). -/
def total_cost (routes : List (List ℕ)) (inst : VRPInstance) (D : ℕ → ℕ → ℚ) : ℚ :=
  (routes.map (fun r => route_distance r D)).sum
    + inst.lambda_tw * (if 0 < inst.lambda_tw then
        (routes.map (fun r => time_window_penalty r inst.all_nodes D)).sum else 0)
    + inst.mu_fair * (if 0 < inst.mu_fair then
        fairness_penalty routes inst.all_nodes 4 else 0)

/-! ### Neighbourhood operators (`neighborhoods.py`) -/

/-- Mirrors `neighborhoods.two_opt_delta`: cost delta of reversing
`route[i..k]`, computed from the four boundary edges, with the same guard. -/
def two_opt_delta (route : List ℕ) (i k : ℕ) (D : ℕ → ℕ → ℚ) : ℚ :=
  if i < 1 ∨ route.length - 1 ≤ k ∨ k ≤ i then 0
  else
    let a := route.getD (i - 1) 0
    let b := route.getD i 0
    let c := route.getD k 0
    let d := route.getD (k + 1) 0
    (D a c + D b d) - (D a b + D c d)

/-- Mirrors `neighborhoods.apply_two_opt`:
`route[:i] + reversed(route[i:k+1]) + route[k+1:]`. -/
def apply_two_opt (route : List ℕ) (i k : ℕ) : List ℕ :=
  route.take i ++ ((route.drop i).take (k + 1 - i)).reverse ++ route.drop (k + 1)

/-- The index pairs `(i, k)` scanned for one route by
`improve_two_opt_intra`: `i ∈ range(1, len-2)`, `k ∈ range(i+1, len-1)`. -/
def twoOptPairs (n : ℕ) : List (ℕ × ℕ) :=
  (List.range' 1 (n - 3)).flatMap (fun i =>
    (List.range' (i + 1) (n - 2 - i)).map (fun k => (i, k)))

/-- The best-improvement scan over one route inside
`improve_two_opt_intra`: start from `best_gain = 0`, keep a move only when
its delta is strictly smaller. -/
def twoOptBest (route : List ℕ) (D : ℕ → ℕ → ℚ) : ℚ × Option (ℕ × ℕ) :=
  (twoOptPairs route.length).foldl
    (fun b p => if two_opt_delta route p.1 p.2 D < b.1 then
        (two_opt_delta route p.1 p.2 D, some p) else b)
    (0, none)

/-- One route's treatment during a pass of `improve_two_opt_intra`:
apply the best strictly-improving move when there is one. -/
def twoOptPassRoute (D : ℕ → ℕ → ℚ) (route : List ℕ) : List ℕ × Bool :=
  match (twoOptBest route D).2 with
  | some p => (apply_two_opt route p.1 p.2, true)
  | none => (route, false)

/-- The pass loop of `improve_two_opt_intra`: up to `max_passes` passes,
stopping early when a pass changes nothing; the Bool accumulates whether any
move was ever applied. -/
def twoOptLoop (D : ℕ → ℕ → ℚ) : ℕ → List (List ℕ) → Bool → List (List ℕ) × Bool
  | 0, rs, imp => (rs, imp)
  | n + 1, rs, imp =>
    if (rs.map (twoOptPassRoute D)).any Prod.snd then
      twoOptLoop D n ((rs.map (twoOptPassRoute D)).map Prod.fst) true
    else ((rs.map (twoOptPassRoute D)).map Prod.fst, imp)

/-- Mirrors `neighborhoods.improve_two_opt_intra`. -/
def improve_two_opt_intra (routes : List (List ℕ)) (D : ℕ → ℕ → ℚ)
    (max_passes : ℕ) : List (List ℕ) × Bool :=
  twoOptLoop D max_passes routes false

/-- A relocate move `(ra, ia, rb, jb)`: take the customer at position `ia`
of route `ra` and insert it before position `jb` of route `rb`. -/
abbrev Move := ℕ × ℕ × ℕ × ℕ

/-- The feasible candidate moves of `relocate_best_improvement`, with their
evaluated gains, in exactly the Python scan order (the same-route skip of
`jb ∈ {ia, ia+1}` and the different-route capacity check included). -/
def relocCandidates (routes : List (List ℕ)) (inst : VRPInstance)
    (D : ℕ → ℕ → ℚ) : List (ℚ × Move) :=
  (List.range routes.length).flatMap (fun ra =>
    (List.range' 1 ((routes.getD ra []).length - 2)).flatMap (fun ia =>
      (List.range routes.length).flatMap (fun rb =>
        if ra = rb ∧ (routes.getD ra []).length ≤ 3 then []
        else if ra ≠ rb ∧ inst.vehicle_capacity
            < route_demand (routes.getD rb []) inst.all_nodes
              + (nodeAt inst.all_nodes ((routes.getD ra []).getD ia 0)).demand then []
        else (List.range' 1 ((routes.getD rb []).length - 1)).filterMap (fun jb =>
          if ra = rb ∧ (jb = ia ∨ jb = ia + 1) then none
          else some (
            (D ((routes.getD ra []).getD (ia - 1) 0) ((routes.getD ra []).getD ia 0)
              + D ((routes.getD ra []).getD ia 0) ((routes.getD ra []).getD (ia + 1) 0)
              - D ((routes.getD ra []).getD (ia - 1) 0)
                  ((routes.getD ra []).getD (ia + 1) 0))
            - (D ((routes.getD rb []).getD (jb - 1) 0) ((routes.getD ra []).getD ia 0)
              + D ((routes.getD ra []).getD ia 0) ((routes.getD rb []).getD jb 0)
              - D ((routes.getD rb []).getD (jb - 1) 0) ((routes.getD rb []).getD jb 0)),
            ra, ia, rb, jb)))))

/-- The global best-improvement selection of `relocate_best_improvement`:
`best_gain` starts at 0 and a candidate replaces the incumbent only when its
gain is strictly larger. -/
def relocBest (cands : List (ℚ × Move)) : ℚ × Option Move :=
  cands.foldl (fun b c => if b.1 < c.1 then (c.1, some c.2) else b) (0, none)

/-- Applying the selected relocate move: `del routes[ra][ia]` then
`routes[rb].insert(jb, customer)` on the same mutable list of routes. -/
def applyReloc (routes : List (List ℕ)) (ra ia rb jb : ℕ) : List (List ℕ) :=
  (routes.set ra ((routes.getD ra []).eraseIdx ia)).set rb
    (((routes.set ra ((routes.getD ra []).eraseIdx ia)).getD rb []).insertIdx jb
      ((routes.getD ra []).getD ia 0))

/-- Mirrors `neighborhoods.relocate_best_improvement`, including the final
`routes[:] = [r if len(r) > 2 else r for r in routes]` line, which keeps
every route (both branches of the conditional return `r` unchanged). -/
def relocate_best_improvement (routes : List (List ℕ)) (inst : VRPInstance)
    (D : ℕ → ℕ → ℚ) : List (List ℕ) × Bool :=
  let scan := relocBest (relocCandidates routes inst D)
  match scan.2 with
  | some (ra, ia, rb, jb) =>
    if 1 / 1000000000 < scan.1 then
      ((applyReloc routes ra ia rb jb).map (fun r => if 2 < r.length then r else r),
        true)
    else (routes, false)
  | none => (routes, false)

/-! ### Clarke-Wright savings construction (`init.py`) -/

/-- The loop state of `clarke_wright`: the route list, the customer-to-route
index map and the per-route endpoint pair, exactly the three mutable
structures of the Python code. -/
structure CWState where
  routes : List (List ℕ)
  route_of : ℕ → ℕ
  ends : ℕ → ℕ × ℕ

/-- Mirrors the nested `feasible_merge` of `clarke_wright`: index guards,
dead-route guard, endpoint membership, and the capacity check. -/
def feasible_merge (inst : VRPInstance) (st : CWState)
    (ri_idx rj_idx i j : ℕ) : Bool :=
  if ri_idx < st.routes.length ∧ rj_idx < st.routes.length then
    if st.routes.getD ri_idx [] = [0, 0] ∨ st.routes.getD rj_idx [] = [0, 0] then
      false
    else if (i ≠ (st.ends ri_idx).1 ∧ i ≠ (st.ends ri_idx).2)
        ∨ (j ≠ (st.ends rj_idx).1 ∧ j ≠ (st.ends rj_idx).2) then false
    else
      decide (route_demand (st.routes.getD ri_idx []) inst.all_nodes
        + route_demand (st.routes.getD rj_idx []) inst.all_nodes
        ≤ inst.vehicle_capacity)
  else false

/-- The orientation of route `Ri` before a merge: reversed when `i` is its
first customer, so that `i` becomes the tail. -/
def cwOrientI (st : CWState) (i : ℕ) : List ℕ :=
  if (st.ends (st.route_of i)).1 = i then (st.routes.getD (st.route_of i) []).reverse
  else st.routes.getD (st.route_of i) []

/-- The orientation of route `Rj` before a merge: reversed when `j` is its
last customer, so that `j` becomes the head. -/
def cwOrientJ (st : CWState) (j : ℕ) : List ℕ :=
  if (st.ends (st.route_of j)).2 = j then (st.routes.getD (st.route_of j) []).reverse
  else st.routes.getD (st.route_of j) []

/-- The merged route: drop the duplicated depot at the join. -/
def cwNewRoute (st : CWState) (i j : ℕ) : List ℕ :=
  (cwOrientI st i).dropLast ++ (cwOrientJ st j).drop 1

/-- The merge of the two routes holding `i` and `j`: overwrite `Ri` with the
merged route, mark `Rj` dead, and update the endpoint and route-of maps. -/
def cwMerge (st : CWState) (i j : ℕ) : CWState :=
  { routes := (st.routes.set (st.route_of i) (cwNewRoute st i j)).set
      (st.route_of j) [0, 0]
    route_of := fun c =>
      if c ≠ 0 ∧ c ∈ cwNewRoute st i j then st.route_of i else st.route_of c
    ends := fun idx =>
      if idx = st.route_of i then
        (if 2 < (cwNewRoute st i j).length then (cwNewRoute st i j).getD 1 0 else 0,
         if 2 < (cwNewRoute st i j).length then
           (cwNewRoute st i j).getD ((cwNewRoute st i j).length - 2) 0 else 0)
      else if idx = st.route_of j then (0, 0) else st.ends idx }

/-- One iteration of the savings loop of `clarke_wright` for the savings
triple `(s, i, j)`: skip same-route and infeasible pairs, otherwise orient
the two routes, merge them dropping the middle depot, mark the consumed
route dead, and update the endpoint and route-of maps. -/
def cwStep (inst : VRPInstance) (st : CWState) (t : ℚ × ℕ × ℕ) : CWState :=
  if st.route_of t.2.1 = st.route_of t.2.2 then st
  else if ¬ feasible_merge inst st (st.route_of t.2.1) (st.route_of t.2.2)
      t.2.1 t.2.2 then st
  else cwMerge st t.2.1 t.2.2

/-- Stable insertion into a descending-sorted list: walk past strictly
larger keys, so an earlier element stays ahead of equal-keyed later ones. -/
def insDesc {α : Type} (key : α → ℚ) (x : α) : List α → List α
  | [] => [x]
  | y :: ys => if key x < key y then y :: insDesc key x ys else x :: y :: ys

/-- Stable sort by strictly descending key, modelling Python's stable
`sort(reverse=True, key=...)` (and `sort(key=lambda r: -load)`). -/
def sortDesc {α : Type} (key : α → ℚ) (l : List α) : List α :=
  l.foldr (insDesc key) []

/-- The savings list of `clarke_wright`: one triple per unordered customer
pair `(i, j)` with `i < j`, sorted by descending savings, stable. -/
def savingsList (n : ℕ) (D : ℕ → ℕ → ℚ) : List (ℚ × ℕ × ℕ) :=
  sortDesc (fun t => t.1)
    ((List.range' 1 n).flatMap (fun i =>
      (List.range' 1 n).filterMap (fun j =>
        if i < j then some (D 0 i + D 0 j - D i j, i, j) else none)))

/-- The initial state of `clarke_wright`: one singleton route `[0, i, 0]`
per customer, `route_of` mapping customer `c` to route `c - 1`, and both
endpoints of route `ri` being customer `ri + 1`. -/
def cwInit (n : ℕ) : CWState :=
  { routes := (List.range' 1 n).map (fun i => [0, i, 0])
    route_of := fun c => c - 1
    ends := fun ri => (ri + 1, ri + 1) }

/-- The route list after the savings loop of `clarke_wright`, with the dead
`[0, 0]` routes pruned but before the vehicle-limit truncation. -/
def cw_alive (inst : VRPInstance) (D : ℕ → ℕ → ℚ) : List (List ℕ) :=
  ((savingsList inst.customers.length D).foldl (cwStep inst)
    (cwInit inst.customers.length)).routes.filter (fun r => r ≠ [0, 0])

/-- Mirrors `init.clarke_wright`: the savings loop, the dead-route pruning,
and the vehicle-limit truncation keeping the heaviest routes. -/
def clarke_wright (inst : VRPInstance) (D : ℕ → ℕ → ℚ) : List (List ℕ) :=
  if inst.num_vehicles < (cw_alive inst D).length then
    (sortDesc (fun r => ((route_demand r inst.all_nodes : ℤ) : ℚ))
      (cw_alive inst D)).take inst.num_vehicles
  else cw_alive inst D

/-! ### Simulated annealing (`meta.py`)

Wall-clock time is modelled by a monotone read sequence `clock` (the value
of `time.time()` at the `n`-th loop check) together with the initial read
`t0` taken when `t_end` is computed; the acceptance draw
`rng.random() < exp(-delta / max(T, 1e-9))` is modelled by the Boolean
oracle `coin` indexed by the iteration counter.  The loop is run on an
explicit iteration budget `fuel`; every Python execution that performs `m`
iterations is this model with any `fuel ≥ m`. -/

/-- The loop state of `simulated_annealing`. -/
structure SAState where
  cur : List (List ℕ)
  curCost : ℚ
  best : List (List ℕ)
  bestCost : ℚ
  temp : ℚ
  iters : ℕ

/-- One iteration of the annealing loop: alternate the two proposal
operators on the iteration parity, accept when `delta ≤ 0` or the oracle
draw succeeds, track the strictly best solution seen, cool the
temperature. -/
def saStep (inst : VRPInstance) (D : ℕ → ℕ → ℚ) (coin : ℕ → Bool)
    (alpha : ℚ) (st : SAState) : SAState :=
  if total_cost (if (st.iters + 1) % 2 = 0 then (improve_two_opt_intra st.cur D 1).1
        else (relocate_best_improvement st.cur inst D).1) inst D - st.curCost ≤ 0
      ∨ coin (st.iters + 1) then
    { cur := (if (st.iters + 1) % 2 = 0 then (improve_two_opt_intra st.cur D 1).1
        else (relocate_best_improvement st.cur inst D).1)
      curCost := total_cost (if (st.iters + 1) % 2 = 0 then
          (improve_two_opt_intra st.cur D 1).1
          else (relocate_best_improvement st.cur inst D).1) inst D
      best := if total_cost (if (st.iters + 1) % 2 = 0 then
            (improve_two_opt_intra st.cur D 1).1
            else (relocate_best_improvement st.cur inst D).1) inst D < st.bestCost
          then (if (st.iters + 1) % 2 = 0 then (improve_two_opt_intra st.cur D 1).1
            else (relocate_best_improvement st.cur inst D).1) else st.best
      bestCost := if total_cost (if (st.iters + 1) % 2 = 0 then
            (improve_two_opt_intra st.cur D 1).1
            else (relocate_best_improvement st.cur inst D).1) inst D < st.bestCost
          then total_cost (if (st.iters + 1) % 2 = 0 then
            (improve_two_opt_intra st.cur D 1).1
            else (relocate_best_improvement st.cur inst D).1) inst D else st.bestCost
      temp := st.temp * alpha, iters := st.iters + 1 }
  else
    { st with temp := st.temp * alpha, iters := st.iters + 1 }

/-- The `while time.time() < t_end` loop of `simulated_annealing`, on an
explicit iteration budget. -/
def saLoop (inst : VRPInstance) (D : ℕ → ℕ → ℚ) (coin : ℕ → Bool)
    (alpha : ℚ) (t_end : ℚ) (clock : ℕ → ℚ) : ℕ → SAState → SAState
  | 0, st => st
  | n + 1, st =>
    if clock st.iters < t_end then
      saLoop inst D coin alpha t_end clock n (saStep inst D coin alpha st)
    else st

/-- Mirrors `meta.simulated_annealing` and returns `best`.  `t0` is the
`time.time()` read used to compute the deadline. -/
def simulated_annealing (routes : List (List ℕ)) (inst : VRPInstance)
    (D : ℕ → ℕ → ℚ) (time_budget_s : ℚ) (T0 alpha : ℚ)
    (t0 : ℚ) (clock : ℕ → ℚ) (coin : ℕ → Bool) (fuel : ℕ) : List (List ℕ) :=
  let c0 := total_cost routes inst D
  (saLoop inst D coin alpha (t0 + time_budget_s) clock fuel
    { cur := routes, curCost := c0, best := routes, bestCost := c0
      temp := T0, iters := 0 }).best

/-! ### Spec-side reference definitions

These follow the wording of the specification (not the code); they exist to
compare the code's behaviour against the spec's sentences. -/

/-- The fairness term as the spec describes it: population variance of the
per-cell visit counts over ALL `nz * nz` cells of the grid, empty cells
included. -/
def fairnessGridSpec (routes : List (List ℕ)) (nodes : List Node) (nz : ℕ) : ℚ :=
  popVar ((List.range (nz * nz)).map
    (fun z => ((zoneVisits routes nodes nz).count z : ℚ)))

/-- The fairness term with the variance taken over only the cells that
receive at least one visit (the behaviour the code implements), written
over the cell enumeration rather than the visit list. -/
def fairnessVisitedSpec (routes : List (List ℕ)) (nodes : List Node) (nz : ℕ) : ℚ :=
  if zoneVisits routes nodes nz = [] then 0
  else popVar (((List.range (nz * nz)).filter
      (fun z => 0 < (zoneVisits routes nodes nz).count z)).map
    (fun z => ((zoneVisits routes nodes nz).count z : ℚ)))

/-- Advance the clock to the window-open time when arriving early. -/
def twWait (o : Option ℚ) (t : ℚ) : ℚ :=
  match o with
  | some op => if t < op then op else t
  | none => t

/-- Lateness past the close time, when a close time exists. -/
def twLate (c : Option ℚ) (t : ℚ) : ℚ :=
  match c with
  | some cl => if cl < t then t - cl else 0
  | none => 0

/-- The time-window simulation exactly as the claim words it: on every
arrival, wait to window-open when early (whenever an open time exists), and
accumulate lateness whenever a close time exists. -/
def twSimClaim (nodes : List Node) (D : ℕ → ℕ → ℚ) : ℚ → List ℕ → ℚ
  | _, [] => 0
  | _, [_] => 0
  | t, a :: b :: rest =>
    let nb := nodeAt nodes b
    let arr := twWait nb.tw_open (t + D a b)
    twLate nb.tw_close arr + twSimClaim nodes D (arr + nb.service) (b :: rest)

/-- The claim's simulation amended minimally: the waiting and lateness step
applies only at nodes that carry BOTH window bounds; nodes with a partial
window are treated as unconstrained. -/
def twSimBoth (nodes : List Node) (D : ℕ → ℕ → ℚ) : ℚ → List ℕ → ℚ
  | _, [] => 0
  | _, [_] => 0
  | t, a :: b :: rest =>
    let nb := nodeAt nodes b
    match nb.tw_open, nb.tw_close with
    | some o, some cl =>
      let arr := twWait (some o) (t + D a b)
      twLate (some cl) arr + twSimBoth nodes D (arr + nb.service) (b :: rest)
    | _, _ => twSimBoth nodes D (t + D a b + nb.service) (b :: rest)

/-! ### Concrete instances used as counterexamples and witnesses

All of them live on the line `y = 0` with integer coordinates, so every
distance matrix below is the Euclidean matrix of its coordinates. -/

/-- Distance lookup in an explicit square matrix given as rows. -/
def matD (m : List (List ℚ)) (i j : ℕ) : ℚ := (m.getD i []).getD j 0

/-- A customer node on the x-axis with no time window. -/
def plainNode (i : ℕ) (x : ℚ) (d : ℤ) : Node := ⟨i, x, 0, d, none, none, 0⟩

/-- Instance for C1: depot at 0, customers at 4 and 3 (unit demands,
capacity 100). -/
def instC1 : VRPInstance :=
  ⟨plainNode 0 0 0, [plainNode 1 4 1, plainNode 2 3 1], 100, 5, 0, 0⟩

/-- Euclidean distances of `instC1`'s coordinates 0, 4, 3. -/
def DC1 (i j : ℕ) : ℚ := matD [[0, 4, 3], [4, 0, 1], [3, 1, 0]] i j

/-- C1: the relocate operator, applied to two singleton routes where moving
customer 1 next to customer 2 has gain 6 > 1e-9, APPLIES the move but keeps
the emptied route `[0, 0]` in the returned solution: the "clean empty
routes" line of the code is a no-op, so the claim that any route left with
zero customers is removed fails on the code. -/
theorem c1_relocate_leaves_empty_route :
    relocate_best_improvement [[0, 1, 0], [0, 2, 0]] instC1 DC1
      = ([[0, 0], [0, 1, 2, 0]], true) ∧
    [0, 0] ∈ (relocate_best_improvement [[0, 1, 0], [0, 2, 0]] instC1 DC1).1 := by
  constructor
  · norm_num [relocate_best_improvement, relocCandidates, relocBest, applyReloc,
      route_demand, nodeAt, VRPInstance.all_nodes, instC1, DC1, matD, plainNode,
      List.range_succ, List.range', List.filterMap_cons, List.foldl_cons,
      List.foldl_nil, List.getD, List.insertIdx, List.eraseIdx, List.set,
      List.getElem_cons_succ, List.getElem_cons_zero]
    decide
  · norm_num [relocate_best_improvement, relocCandidates, relocBest, applyReloc,
      route_demand, nodeAt, VRPInstance.all_nodes, instC1, DC1, matD, plainNode,
      List.range_succ, List.range', List.filterMap_cons, List.foldl_cons,
      List.foldl_nil, List.getD, List.insertIdx, List.eraseIdx, List.set,
      List.getElem_cons_succ, List.getElem_cons_zero]

/-! ### C10: simulated annealing with a non-positive budget -/

/-- C10: with a time budget of zero or less (and a clock that has not gone
backwards since the deadline was computed), the annealing loop performs no
iteration and the returned route list equals the input (the Python code
returns a fresh element-wise copy; list values are equal), so its total
cost is unchanged. -/
theorem c10_zero_budget_identity (routes : List (List ℕ)) (inst : VRPInstance)
    (D : ℕ → ℕ → ℚ) (budget T0 alpha t0 : ℚ) (clock : ℕ → ℚ) (coin : ℕ → Bool)
    (fuel : ℕ) (hb : budget ≤ 0) (hc : t0 ≤ clock 0) :
    simulated_annealing routes inst D budget T0 alpha t0 clock coin fuel = routes ∧
    total_cost (simulated_annealing routes inst D budget T0 alpha t0 clock coin fuel)
        inst D = total_cost routes inst D := by
  have hguard : ¬ clock 0 < t0 + budget := by
    intro h
    have : t0 + budget ≤ t0 := by linarith
    exact absurd (lt_of_le_of_lt hc h) (by linarith)
  have hmain : simulated_annealing routes inst D budget T0 alpha t0 clock coin fuel
      = routes := by
    cases fuel with
    | zero => rfl
    | succ n =>
      simp only [simulated_annealing, saLoop]
      rw [if_neg hguard]
  exact ⟨hmain, by rw [hmain]⟩

/-- Witness for `c10_zero_budget_identity` at a concrete input. -/
theorem c10_zero_budget_identity_witness :
    simulated_annealing [[0, 1, 0]] instC1 DC1 0 1 (995 / 1000) 7 (fun _ => 7)
        (fun _ => false) 50 = [[0, 1, 0]] :=
  (c10_zero_budget_identity [[0, 1, 0]] instC1 DC1 0 1 (995 / 1000) 7 (fun _ => 7)
    (fun _ => false) 50 le_rfl le_rfl).1

/-! ### C6: annealing never returns something costlier than its input -/

/-- The step of the annealing loop never increases the tracked best cost,
and keeps the tracked best cost equal to the cost of the tracked best
solution. -/
theorem bestPair (inst : VRPInstance) (D : ℕ → ℕ → ℚ)
    (cand bprev : List (List ℕ)) (bc : ℚ) (h : bc = total_cost bprev inst D) :
    (if total_cost cand inst D < bc then total_cost cand inst D else bc)
      = total_cost (if total_cost cand inst D < bc then cand else bprev) inst D ∧
    (if total_cost cand inst D < bc then total_cost cand inst D else bc) ≤ bc := by
  by_cases hlt : total_cost cand inst D < bc
  · rw [if_pos hlt, if_pos hlt]
    exact ⟨rfl, le_of_lt hlt⟩
  · rw [if_neg hlt, if_neg hlt]
    exact ⟨h, le_rfl⟩

theorem saStep_best (inst : VRPInstance) (D : ℕ → ℕ → ℚ) (coin : ℕ → Bool)
    (alpha : ℚ) (st : SAState) (h : st.bestCost = total_cost st.best inst D) :
    (saStep inst D coin alpha st).bestCost
        = total_cost (saStep inst D coin alpha st).best inst D ∧
    (saStep inst D coin alpha st).bestCost ≤ st.bestCost := by
  unfold saStep
  by_cases hacc : total_cost
      (if (st.iters + 1) % 2 = 0 then (improve_two_opt_intra st.cur D 1).1
        else (relocate_best_improvement st.cur inst D).1) inst D - st.curCost ≤ 0
      ∨ coin (st.iters + 1)
  · rw [if_pos hacc]
    exact bestPair inst D _ st.best st.bestCost h
  · rw [if_neg hacc]
    exact ⟨h, le_rfl⟩

/-- The annealing loop never increases the tracked best cost and keeps it
equal to the cost of the tracked best solution. -/
theorem saLoop_best (inst : VRPInstance) (D : ℕ → ℕ → ℚ) (coin : ℕ → Bool)
    (alpha t_end : ℚ) (clock : ℕ → ℚ) :
    ∀ (fuel : ℕ) (st : SAState), st.bestCost = total_cost st.best inst D →
      (saLoop inst D coin alpha t_end clock fuel st).bestCost
          = total_cost (saLoop inst D coin alpha t_end clock fuel st).best inst D ∧
      (saLoop inst D coin alpha t_end clock fuel st).bestCost ≤ st.bestCost := by
  intro fuel
  induction fuel with
  | zero => exact fun st h => ⟨h, le_rfl⟩
  | succ n ih =>
    intro st h
    unfold saLoop
    by_cases hclk : clock st.iters < t_end
    · rw [if_pos hclk]
      obtain ⟨h1, h2⟩ := saStep_best inst D coin alpha st h
      obtain ⟨h3, h4⟩ := ih (saStep inst D coin alpha st) h1
      exact ⟨h3, le_trans h4 h2⟩
    · rw [if_neg hclk]
      exact ⟨h, le_rfl⟩

/-- C6: for every input solution, instance, distance matrix and loop
parameters, the solution returned by `simulated_annealing` costs at most
the input solution: the tracked best starts at the input and is replaced
only by strictly cheaper candidates. -/
theorem c6_annealing_cost_nonincreasing (routes : List (List ℕ))
    (inst : VRPInstance) (D : ℕ → ℕ → ℚ) (budget T0 alpha t0 : ℚ)
    (clock : ℕ → ℚ) (coin : ℕ → Bool) (fuel : ℕ) :
    total_cost (simulated_annealing routes inst D budget T0 alpha t0 clock coin fuel)
        inst D ≤ total_cost routes inst D := by
  unfold simulated_annealing
  obtain ⟨h1, h2⟩ := saLoop_best inst D coin alpha (t0 + budget) clock fuel
    { cur := routes, curCost := total_cost routes inst D, best := routes
      bestCost := total_cost routes inst D, temp := T0, iters := 0 } rfl
  dsimp only at h1 h2 ⊢
  rw [← h1]
  exact h2

/-! ### C9: the time-window penalty simulation -/

/-- The penalty accumulator of the code's fold equals the starting penalty
plus the lateness of the simulation that applies the window step only at
nodes carrying both bounds. -/
theorem twFold_eq_simBoth (nodes : List Node) (D : ℕ → ℕ → ℚ) :
    ∀ (route : List ℕ) (t p : ℚ),
      ((route.zip route.tail).foldl (twStep nodes D) (t, p)).2
        = p + twSimBoth nodes D t route := by
  intro route
  induction route with
  | nil => intro t p; simp [twSimBoth]
  | cons a tl ih =>
    intro t p
    cases tl with
    | nil => simp [twSimBoth]
    | cons b rest =>
      show ((((a, b) :: ((b :: rest).zip rest)).foldl (twStep nodes D) (t, p))).2
        = p + twSimBoth nodes D t (a :: b :: rest)
      have hzip : (b :: rest).zip rest = (b :: rest).zip (b :: rest).tail := rfl
      rw [List.foldl_cons, hzip]
      cases ho : (nodeAt nodes b).tw_open with
      | none =>
        have hstep : twStep nodes D (t, p) (a, b)
            = (t + D a b + (nodeAt nodes b).service, p) := by
          simp [twStep, ho]
        have hsim : twSimBoth nodes D t (a :: b :: rest)
            = twSimBoth nodes D (t + D a b + (nodeAt nodes b).service) (b :: rest) := by
          rw [twSimBoth]
          simp [ho]
        rw [hstep, hsim, ih]
      | some o =>
        cases hc : (nodeAt nodes b).tw_close with
        | none =>
          have hstep : twStep nodes D (t, p) (a, b)
              = (t + D a b + (nodeAt nodes b).service, p) := by
            simp [twStep, ho, hc]
          have hsim : twSimBoth nodes D t (a :: b :: rest)
              = twSimBoth nodes D (t + D a b + (nodeAt nodes b).service) (b :: rest) := by
            rw [twSimBoth]
            simp [ho, hc]
          rw [hstep, hsim, ih]
        | some cl =>
          have hstep : twStep nodes D (t, p) (a, b)
              = (twWait (some o) (t + D a b) + (nodeAt nodes b).service,
                 p + twLate (some cl) (twWait (some o) (t + D a b))) := by
            simp only [twStep, ho, hc]
            dsimp only [twWait, twLate]
            by_cases hl : cl < (if t + D a b < o then o else t + D a b)
            · rw [if_pos hl, if_pos hl]
            · rw [if_neg hl, if_neg hl, add_zero]
          have hsim : twSimBoth nodes D t (a :: b :: rest)
              = twLate (some cl) (twWait (some o) (t + D a b))
                + twSimBoth nodes D
                  (twWait (some o) (t + D a b) + (nodeAt nodes b).service)
                  (b :: rest) := by
            rw [twSimBoth]
            simp [ho, hc]
          rw [hstep, hsim, ih]
          ring

/-- C9 (amended): the code's time-window penalty equals the claim's
clock/lateness simulation amended so that the waiting and lateness step
applies only at nodes with BOTH an open and a close time. -/
theorem c9_time_window_amended (route : List ℕ) (nodes : List Node)
    (D : ℕ → ℕ → ℚ) :
    time_window_penalty route nodes D = twSimBoth nodes D 0 route := by
  unfold time_window_penalty
  rw [twFold_eq_simBoth nodes D route 0 0, zero_add]

/-! ### Preservation machinery: customer counts and route loads -/

/-- Total number of occurrences of stop `c` across all routes. -/
def countAll (c : ℕ) (rs : List (List ℕ)) : ℕ :=
  (rs.map (fun r => r.count c)).sum

/-- A list is a permutation of its `i`-th element consed on its
`i`-th-removed remainder. -/
theorem perm_getD_cons_eraseIdx :
    ∀ (l : List ℕ) (i : ℕ), i < l.length →
      l.Perm (l.getD i 0 :: l.eraseIdx i) := by
  intro l
  induction l with
  | nil => intro i h; simp at h
  | cons x t ih =>
    intro i h
    cases i with
    | zero => exact List.Perm.refl _
    | succ i =>
      have h' : i < t.length := by simpa using h
      exact ((ih i h').cons x).trans (List.Perm.swap (t.getD i 0) x (t.eraseIdx i))

/-- `route_demand` only depends on the multiset of stops. -/
theorem route_demand_perm {l l' : List ℕ} (nodes : List Node) (h : l.Perm l') :
    route_demand l nodes = route_demand l' nodes :=
  ((h.filter _).map _).sum_eq

/-- Inserting a stop adds its (non-depot) demand. -/
theorem route_demand_insertIdx (l : List ℕ) (j x : ℕ) (nodes : List Node)
    (h : j ≤ l.length) :
    route_demand (l.insertIdx j x) nodes
      = route_demand (x :: l) nodes :=
  route_demand_perm nodes (List.perm_insertIdx x l h)

/-- With nonnegative demands in the node list, every demand read is
nonnegative (out-of-range reads give the zero node). -/
theorem nodeAt_demand_nonneg (nodes : List Node) (x : ℕ)
    (hnn : ∀ n ∈ nodes, 0 ≤ n.demand) : 0 ≤ (nodeAt nodes x).demand := by
  unfold nodeAt
  by_cases hr : x < nodes.length
  · rw [List.getD_eq_getElem _ _ hr]
    exact hnn _ (List.getElem_mem hr)
  · rw [List.getD_eq_default _ _ (by omega)]
    exact le_of_eq rfl

/-- The demand of `x :: l` is the (non-depot) demand of `x` plus the demand
of `l`. -/
theorem route_demand_cons (x : ℕ) (l : List ℕ) (nodes : List Node) :
    route_demand (x :: l) nodes
      = (if x = 0 then 0 else (nodeAt nodes x).demand) + route_demand l nodes := by
  unfold route_demand
  rw [List.filter_cons]
  by_cases hx0 : x = 0
  · simp [hx0]
  · simp [hx0]

/-- The demand of a route never exceeds the demand of the route with one
more stop, when all demands are nonnegative. -/
theorem route_demand_cons_le (x : ℕ) (l : List ℕ) (nodes : List Node)
    (hnn : ∀ n ∈ nodes, 0 ≤ n.demand) :
    route_demand l nodes ≤ route_demand (x :: l) nodes := by
  rw [route_demand_cons]
  by_cases hx0 : x = 0
  · simp [hx0]
  · rw [if_neg hx0]
    have := nodeAt_demand_nonneg nodes x hnn
    linarith

/-- `getD` after `set` at the same position. -/
theorem getD_set_self (l : List (List ℕ)) (i : ℕ) (x : List ℕ)
    (h : i < l.length) : (l.set i x).getD i [] = x := by
  unfold List.getD
  rw [List.get?_eq_getElem?, List.getElem?_set_self h]
  rfl

/-- `getD` after `set` at a different position. -/
theorem getD_set_ne (l : List (List ℕ)) (i j : ℕ) (x : List ℕ)
    (h : i ≠ j) : (l.set i x).getD j [] = l.getD j [] := by
  unfold List.getD
  rw [List.get?_eq_getElem?, List.getElem?_set_ne h, ← List.get?_eq_getElem?]

/-- Updating one route exchanges its contribution to `countAll`. -/
theorem countAll_set (c : ℕ) :
    ∀ (rs : List (List ℕ)) (i : ℕ) (x : List ℕ), i < rs.length →
      countAll c (rs.set i x) + (rs.getD i []).count c
        = countAll c rs + x.count c := by
  intro rs
  induction rs with
  | nil => intro i x h; simp at h
  | cons r rest ih =>
    intro i x h
    cases i with
    | zero =>
      simp only [List.set_cons_zero, countAll, List.map_cons, List.sum_cons,
        List.getD_cons_zero]
      omega
    | succ i =>
      have h' : i < rest.length := by simpa using h
      simp only [List.set_cons_succ, countAll, List.map_cons, List.sum_cons,
        List.getD_cons_succ]
      have := ih i x h'
      simp only [countAll] at this
      omega

/-- Updating one route exchanges its contribution to the route loads. -/
theorem loads_set (nodes : List Node) (cap : ℤ) (rs : List (List ℕ)) (i : ℕ)
    (x : List ℕ) (hall : ∀ r ∈ rs, route_demand r nodes ≤ cap)
    (hx : route_demand x nodes ≤ cap) :
    ∀ r ∈ rs.set i x, route_demand r nodes ≤ cap := by
  intro r hr
  rcases (List.mem_or_eq_of_mem_set hr) with h | h
  · exact hall r h
  · rw [h]
    exact hx

/-- The bounds and capacity facts carried by every scanned relocate
candidate `(gain, ra, ia, rb, jb)`. -/
def MoveOK (routes : List (List ℕ)) (inst : VRPInstance) (m : Move) : Prop :=
  m.1 < routes.length ∧ m.2.2.1 < routes.length ∧
  1 ≤ m.2.1 ∧ m.2.1 + 1 < (routes.getD m.1 []).length ∧
  1 ≤ m.2.2.2 ∧ m.2.2.2 < (routes.getD m.2.2.1 []).length ∧
  (m.1 ≠ m.2.2.1 →
    route_demand (routes.getD m.2.2.1 []) inst.all_nodes
      + (nodeAt inst.all_nodes ((routes.getD m.1 []).getD m.2.1 0)).demand
      ≤ inst.vehicle_capacity)

/-- Every candidate produced by the relocate scan satisfies `MoveOK`. -/
theorem relocCandidates_ok (routes : List (List ℕ)) (inst : VRPInstance)
    (D : ℕ → ℕ → ℚ) :
    ∀ cm ∈ relocCandidates routes inst D, MoveOK routes inst cm.2 := by
  intro cm hcm
  unfold relocCandidates at hcm
  obtain ⟨ra, hra, hcm⟩ := List.mem_flatMap.mp hcm
  obtain ⟨ia, hia, hcm⟩ := List.mem_flatMap.mp hcm
  obtain ⟨rb, hrb, hcm⟩ := List.mem_flatMap.mp hcm
  rw [List.mem_range] at hra hrb
  rw [List.mem_range'_1] at hia
  split at hcm
  · simp at hcm
  · split at hcm
    · simp at hcm
    · next hcapguard =>
      obtain ⟨jb, hjb, hsome⟩ := List.mem_filterMap.mp hcm
      rw [List.mem_range'_1] at hjb
      split at hsome
      · simp at hsome
      · rw [Option.some_inj] at hsome
        subst hsome
        show MoveOK routes inst (ra, ia, rb, jb)
        unfold MoveOK
        dsimp only
        refine ⟨hra, hrb, hia.1, by omega, hjb.1, by omega, ?_⟩
        intro hne
        by_contra hgt
        exact hcapguard ⟨hne, by linarith⟩

/-- Either the best-candidate fold returns its initial accumulator, or it
returns the gain and move of one of the scanned candidates. -/
theorem foldl_pick {α : Type} :
    ∀ (cands : List (ℚ × α)) (init : ℚ × Option α),
      cands.foldl (fun b c => if b.1 < c.1 then (c.1, some c.2) else b) init = init
      ∨ ∃ cm ∈ cands,
          cands.foldl (fun b c => if b.1 < c.1 then (c.1, some c.2) else b) init
            = (cm.1, some cm.2) := by
  intro cands
  induction cands with
  | nil => intro init; exact Or.inl rfl
  | cons c cs ih =>
    intro init
    rw [List.foldl_cons]
    rcases ih (if init.1 < c.1 then (c.1, some c.2) else init) with h | ⟨cm, hmem, heq⟩
    · by_cases hlt : init.1 < c.1
      · exact Or.inr ⟨c, List.mem_cons_self c cs, by rw [h, if_pos hlt]⟩
      · exact Or.inl (by rw [h, if_neg hlt])
    · exact Or.inr ⟨cm, List.mem_cons_of_mem c hmem, heq⟩

/-- A route indexed inside the route list is one of its members. -/
theorem getD_mem_of_lt (rs : List (List ℕ)) (i : ℕ) (h : i < rs.length) :
    rs.getD i [] ∈ rs := by
  rw [List.getD_eq_getElem rs [] h]
  exact List.getElem_mem h

/-- Applying a relocate move preserves the number of occurrences of every
stop across the solution. -/
theorem applyReloc_countAll (routes : List (List ℕ)) (ra ia rb jb c : ℕ)
    (h1 : ra < routes.length) (h2 : rb < routes.length)
    (h4 : ia + 1 < (routes.getD ra []).length)
    (h6 : jb < (routes.getD rb []).length) :
    countAll c (applyReloc routes ra ia rb jb) = countAll c routes := by
  have hialt : ia < (routes.getD ra []).length := by omega
  have hperma : (routes.getD ra []).Perm
      ((routes.getD ra []).getD ia 0 :: (routes.getD ra []).eraseIdx ia) :=
    perm_getD_cons_eraseIdx _ ia hialt
  have hlene : ((routes.getD ra []).eraseIdx ia).length
      = (routes.getD ra []).length - 1 := by
    rw [List.length_eraseIdx_of_lt hialt]
  unfold applyReloc
  by_cases hab : ra = rb
  · subst hab
    rw [getD_set_self _ _ _ h1, List.set_set]
    have hins : (((routes.getD ra []).eraseIdx ia).insertIdx jb
        ((routes.getD ra []).getD ia 0)).Perm (routes.getD ra []) := by
      refine (List.perm_insertIdx _ _ ?_).trans hperma.symm
      omega
    have hc := countAll_set c routes ra
      (((routes.getD ra []).eraseIdx ia).insertIdx jb
        ((routes.getD ra []).getD ia 0)) h1
    rw [hins.count_eq c] at hc
    omega
  · rw [getD_set_ne _ _ _ _ hab]
    have hc1 := countAll_set c routes ra ((routes.getD ra []).eraseIdx ia) h1
    have hc2 := countAll_set c (routes.set ra ((routes.getD ra []).eraseIdx ia)) rb
      (((routes.getD rb []).insertIdx jb ((routes.getD ra []).getD ia 0)))
      (by rw [List.length_set]; exact h2)
    rw [getD_set_ne _ _ _ _ hab] at hc2
    have e1 : (routes.getD ra []).count c
        = ((routes.getD ra []).getD ia 0 :: (routes.getD ra []).eraseIdx ia).count c :=
      hperma.count_eq c
    have e2 : (((routes.getD rb []).insertIdx jb
        ((routes.getD ra []).getD ia 0))).count c
        = (((routes.getD ra []).getD ia 0) :: routes.getD rb []).count c :=
      (List.perm_insertIdx _ _ (by omega)).count_eq c
    rw [List.count_cons] at e1 e2
    omega

/-- Applying a scanned relocate move keeps every route load within the
capacity, provided all demands are nonnegative. -/
theorem applyReloc_loads (routes : List (List ℕ)) (inst : VRPInstance)
    (ra ia rb jb : ℕ)
    (h1 : ra < routes.length) (h2 : rb < routes.length)
    (h4 : ia + 1 < (routes.getD ra []).length)
    (h6 : jb < (routes.getD rb []).length)
    (hcap : ra ≠ rb →
      route_demand (routes.getD rb []) inst.all_nodes
        + (nodeAt inst.all_nodes ((routes.getD ra []).getD ia 0)).demand
        ≤ inst.vehicle_capacity)
    (hnn : ∀ n ∈ inst.all_nodes, 0 ≤ n.demand)
    (hall : ∀ r ∈ routes, route_demand r inst.all_nodes ≤ inst.vehicle_capacity) :
    ∀ r ∈ applyReloc routes ra ia rb jb,
      route_demand r inst.all_nodes ≤ inst.vehicle_capacity := by
  have hialt : ia < (routes.getD ra []).length := by omega
  have hperma : (routes.getD ra []).Perm
      ((routes.getD ra []).getD ia 0 :: (routes.getD ra []).eraseIdx ia) :=
    perm_getD_cons_eraseIdx _ ia hialt
  have hlene : ((routes.getD ra []).eraseIdx ia).length
      = (routes.getD ra []).length - 1 := by
    rw [List.length_eraseIdx_of_lt hialt]
  have hmemra : routes.getD ra [] ∈ routes := getD_mem_of_lt routes ra h1
  unfold applyReloc
  by_cases hab : ra = rb
  · subst hab
    rw [getD_set_self _ _ _ h1, List.set_set]
    have hins : (((routes.getD ra []).eraseIdx ia).insertIdx jb
        ((routes.getD ra []).getD ia 0)).Perm (routes.getD ra []) := by
      refine (List.perm_insertIdx _ _ ?_).trans hperma.symm
      omega
    exact loads_set inst.all_nodes inst.vehicle_capacity routes ra _ hall
      (by rw [route_demand_perm inst.all_nodes hins]; exact hall _ hmemra)
  · rw [getD_set_ne _ _ _ _ hab]
    have hA : route_demand ((routes.getD ra []).eraseIdx ia) inst.all_nodes
        ≤ inst.vehicle_capacity := by
      have := route_demand_cons_le ((routes.getD ra []).getD ia 0)
        ((routes.getD ra []).eraseIdx ia) inst.all_nodes hnn
      have heq := route_demand_perm inst.all_nodes hperma
      have := hall _ hmemra
      linarith
    have hB : route_demand
        (((routes.getD rb []).insertIdx jb ((routes.getD ra []).getD ia 0)))
        inst.all_nodes ≤ inst.vehicle_capacity := by
      rw [route_demand_perm inst.all_nodes (List.perm_insertIdx _ _ (by omega))]
      rw [route_demand_cons]
      by_cases h0 : (routes.getD ra []).getD ia 0 = 0
      · rw [if_pos h0]
        have hd := nodeAt_demand_nonneg inst.all_nodes
          ((routes.getD ra []).getD ia 0) hnn
        have := hcap hab
        linarith
      · rw [if_neg h0]
        have := hcap hab
        linarith
    exact loads_set _ _ _ rb _
      (loads_set _ _ _ ra _ hall hA) hB

/-- The final list comprehension of `relocate_best_improvement` keeps every
route (both branches of its conditional return the route unchanged). -/
theorem cleanup_id (rs : List (List ℕ)) :
    rs.map (fun r => if 2 < r.length then r else r) = rs := by
  simp

/-- A relocate pass preserves the number of occurrences of every stop. -/
theorem relocate_countAll (routes : List (List ℕ)) (inst : VRPInstance)
    (D : ℕ → ℕ → ℚ) (c : ℕ) :
    countAll c (relocate_best_improvement routes inst D).1 = countAll c routes := by
  unfold relocate_best_improvement
  rcases foldl_pick (relocCandidates routes inst D) (0, none) with h | ⟨cm, hmem, heq⟩
  · unfold relocBest
    rw [h]
  · obtain ⟨g, ra, ia, rb, jb⟩ := cm
    obtain ⟨k1, k2, k3, k4, k5, k6, k7⟩ := relocCandidates_ok routes inst D _ hmem
    unfold relocBest
    rw [heq]
    dsimp only
    split
    · rw [cleanup_id]
      exact applyReloc_countAll routes ra ia rb jb c k1 k2 k4 k6
    · rfl

/-- A relocate pass keeps all route loads within capacity, provided all
demands are nonnegative. -/
theorem relocate_loads (routes : List (List ℕ)) (inst : VRPInstance)
    (D : ℕ → ℕ → ℚ)
    (hnn : ∀ n ∈ inst.all_nodes, 0 ≤ n.demand)
    (hall : ∀ r ∈ routes, route_demand r inst.all_nodes ≤ inst.vehicle_capacity) :
    ∀ r ∈ (relocate_best_improvement routes inst D).1,
      route_demand r inst.all_nodes ≤ inst.vehicle_capacity := by
  unfold relocate_best_improvement
  rcases foldl_pick (relocCandidates routes inst D) (0, none) with h | ⟨cm, hmem, heq⟩
  · unfold relocBest
    rw [h]
    exact hall
  · obtain ⟨g, ra, ia, rb, jb⟩ := cm
    obtain ⟨k1, k2, k3, k4, k5, k6, k7⟩ := relocCandidates_ok routes inst D _ hmem
    unfold relocBest
    rw [heq]
    dsimp only
    split
    · rw [cleanup_id]
      exact applyReloc_loads routes inst ra ia rb jb k1 k2 k4 k6 k7 hnn hall
    · exact hall

/-- Every scanned 2-opt index pair satisfies `1 ≤ i < k ≤ n - 2`. -/
theorem twoOptPairs_bounds (n : ℕ) :
    ∀ p ∈ twoOptPairs n, 1 ≤ p.1 ∧ p.1 < p.2 ∧ p.2 ≤ n - 2 := by
  intro p hp
  unfold twoOptPairs at hp
  obtain ⟨i, hi, hp⟩ := List.mem_flatMap.mp hp
  obtain ⟨k, hk, rfl⟩ := List.mem_map.mp hp
  rw [List.mem_range'_1] at hi hk
  exact ⟨hi.1, by omega, by omega⟩

/-- Either the best-move fold over the 2-opt pairs returns its initial
accumulator, or it returns the delta and pair of a scanned pair. -/
theorem foldl_pick2 {α : Type} (f : α → ℚ) :
    ∀ (ps : List α) (init : ℚ × Option α),
      ps.foldl (fun b p => if f p < b.1 then (f p, some p) else b) init = init
      ∨ ∃ p ∈ ps,
          ps.foldl (fun b p => if f p < b.1 then (f p, some p) else b) init
            = (f p, some p) := by
  intro ps
  induction ps with
  | nil => intro init; exact Or.inl rfl
  | cons q qs ih =>
    intro init
    rw [List.foldl_cons]
    rcases ih (if f q < init.1 then (f q, some q) else init) with h | ⟨p, hmem, heq⟩
    · by_cases hlt : f q < init.1
      · exact Or.inr ⟨q, List.mem_cons_self q qs, by rw [h, if_pos hlt]⟩
      · exact Or.inl (by rw [h, if_neg hlt])
    · exact Or.inr ⟨p, List.mem_cons_of_mem q hmem, heq⟩

/-- A 2-opt application permutes the route (it reverses an inner block). -/
theorem apply_two_opt_perm (route : List ℕ) (i k : ℕ) (h : i ≤ k + 1) :
    (apply_two_opt route i k).Perm route := by
  unfold apply_two_opt
  have hsplit : (route.drop i).take (k + 1 - i) ++ route.drop (k + 1)
      = route.drop i := by
    have h1 : (route.drop i).drop (k + 1 - i) = route.drop (k + 1) := by
      rw [List.drop_drop, show i + (k + 1 - i) = k + 1 from by omega]
    rw [← h1, List.take_append_drop]
  rw [List.append_assoc]
  have h2 := List.Perm.append_left (route.take i)
    ((List.reverse_perm ((route.drop i).take (k + 1 - i))).append_right
      (route.drop (k + 1)))
  rw [hsplit, List.take_append_drop] at h2
  exact h2

/-- One 2-opt pass step on a route returns a permutation of it. -/
theorem twoOptPassRoute_perm (D : ℕ → ℕ → ℚ) (route : List ℕ) :
    ((twoOptPassRoute D route).1).Perm route := by
  unfold twoOptPassRoute
  rcases foldl_pick2 (fun p : ℕ × ℕ => two_opt_delta route p.1 p.2 D)
      (twoOptPairs route.length) (0, none) with h | ⟨p, hmem, heq⟩
  · unfold twoOptBest
    rw [h]
  · obtain ⟨h1, h2, _⟩ := twoOptPairs_bounds route.length p hmem
    unfold twoOptBest
    rw [heq]
    exact apply_two_opt_perm route p.1 p.2 (by omega)

/-- Mapping a per-route permutation over the solution preserves all
occurrence counts. -/
theorem countAll_map_perm (rs : List (List ℕ)) (f : List ℕ → List ℕ)
    (hf : ∀ r, (f r).Perm r) (c : ℕ) :
    countAll c (rs.map f) = countAll c rs := by
  unfold countAll
  rw [List.map_map]
  congr 1
  exact List.map_congr_left (fun r _ => (hf r).count_eq c)

/-- One full 2-opt pass over the solution preserves all occurrence counts. -/
theorem twoOptLoop_countAll (D : ℕ → ℕ → ℚ) :
    ∀ (n : ℕ) (rs : List (List ℕ)) (imp : Bool) (c : ℕ),
      countAll c (twoOptLoop D n rs imp).1 = countAll c rs := by
  intro n
  induction n with
  | zero => intro rs imp c; rfl
  | succ n ih =>
    intro rs imp c
    unfold twoOptLoop
    have hpass : countAll c ((rs.map (twoOptPassRoute D)).map Prod.fst)
        = countAll c rs := by
      rw [List.map_map]
      exact countAll_map_perm rs _ (fun r => twoOptPassRoute_perm D r) c
    split
    · rw [ih, hpass]
    · exact hpass

/-- A 2-opt pass preserves all occurrence counts. -/
theorem twoOpt_countAll (routes : List (List ℕ)) (D : ℕ → ℕ → ℚ)
    (mp : ℕ) (c : ℕ) :
    countAll c (improve_two_opt_intra routes D mp).1 = countAll c routes :=
  twoOptLoop_countAll D mp routes false c

/-- One full 2-opt pass keeps every route load unchanged as a multiset of
routes, hence within capacity. -/
theorem twoOptLoop_loads (D : ℕ → ℕ → ℚ) (nodes : List Node) (cap : ℤ) :
    ∀ (n : ℕ) (rs : List (List ℕ)) (imp : Bool),
      (∀ r ∈ rs, route_demand r nodes ≤ cap) →
      ∀ r ∈ (twoOptLoop D n rs imp).1, route_demand r nodes ≤ cap := by
  intro n
  induction n with
  | zero => intro rs imp hall; exact hall
  | succ n ih =>
    intro rs imp hall
    have hpass : ∀ r ∈ (rs.map (twoOptPassRoute D)).map Prod.fst,
        route_demand r nodes ≤ cap := by
      intro r hr
      rw [List.map_map] at hr
      obtain ⟨r0, hr0, rfl⟩ := List.mem_map.mp hr
      simp only [Function.comp_apply]
      rw [route_demand_perm nodes (twoOptPassRoute_perm D r0)]
      exact hall r0 hr0
    unfold twoOptLoop
    split
    · exact ih _ true hpass
    · exact hpass

/-- A 2-opt pass keeps all route loads within capacity. -/
theorem twoOpt_loads (routes : List (List ℕ)) (D : ℕ → ℕ → ℚ) (mp : ℕ)
    (nodes : List Node) (cap : ℤ)
    (hall : ∀ r ∈ routes, route_demand r nodes ≤ cap) :
    ∀ r ∈ (improve_two_opt_intra routes D mp).1, route_demand r nodes ≤ cap :=
  twoOptLoop_loads D nodes cap mp routes false hall

/-! ### Clarke-Wright invariants -/

/-- The shape every Clarke-Wright route keeps: at least two stops, depot at
both ends. -/
def RouteOK (r : List ℕ) : Prop :=
  2 ≤ r.length ∧ r.head? = some 0 ∧ r.getLast? = some 0

theorem RouteOK.reverse {r : List ℕ} (h : RouteOK r) : RouteOK r.reverse :=
  ⟨by rw [List.length_reverse]; exact h.1,
   by rw [List.head?_reverse]; exact h.2.2,
   by rw [List.getLast?_reverse]; exact h.2.1⟩

theorem routeOK_dead : RouteOK [0, 0] := ⟨by norm_num, rfl, rfl⟩

/-- A `RouteOK` route decomposes as `0 :: body` with `body ≠ []`. -/
theorem RouteOK.cons_shape {r : List ℕ} (h : RouteOK r) :
    ∃ body, r = 0 :: body ∧ body ≠ [] := by
  obtain ⟨hlen, hhead, _⟩ := h
  cases r with
  | nil => simp at hlen
  | cons a body =>
    rw [List.head?_cons, Option.some_inj] at hhead
    refine ⟨body, by rw [hhead], ?_⟩
    intro hnil
    rw [hnil] at hlen
    simp at hlen

/-- A `RouteOK` route decomposes as `front ++ [0]` with `front ≠ []`. -/
theorem RouteOK.concat_shape {r : List ℕ} (h : RouteOK r) :
    ∃ front, r = front ++ [0] ∧ front ≠ [] := by
  obtain ⟨hlen, _, hlast⟩ := h
  have hne : r ≠ [] := by
    intro hnil
    rw [hnil] at hlen
    simp at hlen
  have h0 : r.getLast hne = 0 := by
    have := List.getLast?_eq_getLast r hne
    rw [hlast] at this
    exact (Option.some_inj.mp this.symm)
  refine ⟨r.dropLast, by rw [← h0, List.dropLast_append_getLast hne], ?_⟩
  intro hnil
  have := List.dropLast_append_getLast hne
  rw [hnil] at this
  rw [← this] at hlen
  simp at hlen

/-- The merged route of two `RouteOK` routes is `RouteOK`. -/
theorem newRoute_ok {ri rj : List ℕ} (hi : RouteOK ri) (hj : RouteOK rj) :
    RouteOK (ri.dropLast ++ rj.drop 1) := by
  obtain ⟨front, hfr, hfne⟩ := hi.concat_shape
  obtain ⟨body, hbo, hbne⟩ := hj.cons_shape
  have hdl : ri.dropLast = front := by
    rw [hfr, List.dropLast_concat]
  have hd1 : rj.drop 1 = body := by
    rw [hbo, List.drop_one, List.tail_cons]
  rw [hdl, hd1]
  refine ⟨?_, ?_, ?_⟩
  · rcases front with _ | ⟨a, fr⟩
    · exact absurd rfl hfne
    · rcases body with _ | ⟨b, bo⟩
      · exact absurd rfl hbne
      · simp [List.length_append]
        omega
  · have hfront0 : front.head? = some 0 := by
      have := hi.2.1
      rw [hfr] at this
      rcases front with _ | ⟨a, fr⟩
      · exact absurd rfl hfne
      · simpa using this
    rw [List.head?_append_of_ne_nil _ hfne]
    exact hfront0
  · have hbody0 : body.getLast? = some 0 := by
      have := hj.2.2
      rw [hbo] at this
      rcases body with _ | ⟨b, bo⟩
      · exact absurd rfl hbne
      · rwa [List.getLast?_cons_cons] at this
    rw [List.getLast?_append_of_ne_nil _ hbne]
    exact hbody0

/-- Counting a non-depot stop in the merged route adds the two counts. -/
theorem newRoute_count {ri rj : List ℕ} (hi : RouteOK ri) (hj : RouteOK rj)
    (c : ℕ) (hc : c ≠ 0) :
    (ri.dropLast ++ rj.drop 1).count c = ri.count c + rj.count c := by
  obtain ⟨front, hfr, hfne⟩ := hi.concat_shape
  obtain ⟨body, hbo, hbne⟩ := hj.cons_shape
  have hdl : ri.dropLast = front := by
    rw [hfr, List.dropLast_concat]
  have hd1 : rj.drop 1 = body := by
    rw [hbo, List.drop_one, List.tail_cons]
  have h1 : (0 == c) = false := by
    rw [beq_eq_false_iff_ne]
    omega
  rw [hdl, hd1, hfr, hbo]
  simp only [List.count_append, List.count_cons, List.count_nil,
    List.count_singleton, h1]
  simp

/-- The demand of the merged route is the sum of the two demands. -/
theorem newRoute_demand {ri rj : List ℕ} (hi : RouteOK ri) (hj : RouteOK rj)
    (nodes : List Node) :
    route_demand (ri.dropLast ++ rj.drop 1) nodes
      = route_demand ri nodes + route_demand rj nodes := by
  obtain ⟨front, hfr, hfne⟩ := hi.concat_shape
  obtain ⟨body, hbo, hbne⟩ := hj.cons_shape
  have hdl : ri.dropLast = front := by
    rw [hfr, List.dropLast_concat]
  have hd1 : rj.drop 1 = body := by
    rw [hbo, List.drop_one, List.tail_cons]
  have happ : ∀ (l l' : List ℕ), route_demand (l ++ l') nodes
      = route_demand l nodes + route_demand l' nodes := by
    intro l l'
    unfold route_demand
    rw [List.filter_append, List.map_append, List.sum_append]
  rw [hdl, hd1, happ, hfr, hbo, happ, route_demand_cons]
  simp [route_demand]

/-- The partition invariant of the Clarke-Wright loop state. -/
def CWInv (N : ℕ) (st : CWState) : Prop :=
  st.routes.length = N ∧
  (∀ r ∈ st.routes, RouteOK r) ∧
  (∀ c : ℕ, c ≠ 0 → countAll c st.routes = if 1 ≤ c ∧ c ≤ N then 1 else 0)

/-- What `feasible_merge = true` guarantees. -/
theorem feasible_merge_true {inst : VRPInstance} {st : CWState}
    {ri_idx rj_idx i j : ℕ}
    (h : feasible_merge inst st ri_idx rj_idx i j = true) :
    ri_idx < st.routes.length ∧ rj_idx < st.routes.length ∧
    route_demand (st.routes.getD ri_idx []) inst.all_nodes
      + route_demand (st.routes.getD rj_idx []) inst.all_nodes
      ≤ inst.vehicle_capacity := by
  unfold feasible_merge at h
  split at h
  · next hb =>
    split at h
    · exact absurd h (by simp)
    · split at h
      · exact absurd h (by simp)
      · exact ⟨hb.1, hb.2, of_decide_eq_true h⟩
  · exact absurd h (by simp)

/-- One savings-loop step preserves the partition invariant. -/
theorem cwStep_inv (inst : VRPInstance) (N : ℕ) (st : CWState)
    (t : ℚ × ℕ × ℕ) (h : CWInv N st) : CWInv N (cwStep inst st t) := by
  obtain ⟨hlen, hok, hcount⟩ := h
  unfold cwStep
  split
  · exact ⟨hlen, hok, hcount⟩
  split
  · exact ⟨hlen, hok, hcount⟩
  next hne hfeas =>
    rw [not_not] at hfeas
    obtain ⟨hri, hrj, _⟩ := feasible_merge_true hfeas
    have hoki : RouteOK (st.routes.getD (st.route_of t.2.1) []) :=
      hok _ (getD_mem_of_lt _ _ hri)
    have hokj : RouteOK (st.routes.getD (st.route_of t.2.2) []) :=
      hok _ (getD_mem_of_lt _ _ hrj)
    have hoi : RouteOK (cwOrientI st t.2.1) := by
      unfold cwOrientI
      split
      · exact hoki.reverse
      · exact hoki
    have hoj : RouteOK (cwOrientJ st t.2.2) := by
      unfold cwOrientJ
      split
      · exact hokj.reverse
      · exact hokj
    have hnew : RouteOK (cwNewRoute st t.2.1 t.2.2) := newRoute_ok hoi hoj
    refine ⟨?_, ?_, ?_⟩
    · unfold cwMerge
      dsimp only
      rw [List.length_set, List.length_set]
      exact hlen
    · intro r hr
      unfold cwMerge at hr
      dsimp only at hr
      rcases List.mem_or_eq_of_mem_set hr with hr2 | hr2
      · rcases List.mem_or_eq_of_mem_set hr2 with hr3 | hr3
        · exact hok r hr3
        · rw [hr3]
          exact hnew
      · rw [hr2]
        exact routeOK_dead
    · intro c hc
      have hcnti : (cwOrientI st t.2.1).count c
          = (st.routes.getD (st.route_of t.2.1) []).count c := by
        unfold cwOrientI
        split
        · exact List.count_reverse c _
        · rfl
      have hcntj : (cwOrientJ st t.2.2).count c
          = (st.routes.getD (st.route_of t.2.2) []).count c := by
        unfold cwOrientJ
        split
        · exact List.count_reverse c _
        · rfl
      have hcnew : (cwNewRoute st t.2.1 t.2.2).count c
          = (st.routes.getD (st.route_of t.2.1) []).count c
            + (st.routes.getD (st.route_of t.2.2) []).count c := by
        unfold cwNewRoute
        rw [newRoute_count hoi hoj c hc, hcnti, hcntj]
      have hc1 := countAll_set c st.routes (st.route_of t.2.1)
        (cwNewRoute st t.2.1 t.2.2) hri
      have hc2 := countAll_set c (st.routes.set (st.route_of t.2.1)
        (cwNewRoute st t.2.1 t.2.2)) (st.route_of t.2.2) [0, 0]
        (by rw [List.length_set]; exact hrj)
      rw [getD_set_ne _ _ _ _ hne] at hc2
      have hdead : ([0, 0] : List ℕ).count c = 0 := by
        simp [List.count_cons]
        omega
      have hgoal := hcount c hc
      unfold cwMerge
      dsimp only
      omega

/-- The whole savings loop preserves the partition invariant. -/
theorem cwFold_inv (inst : VRPInstance) (N : ℕ) :
    ∀ (l : List (ℚ × ℕ × ℕ)) (st : CWState), CWInv N st →
      CWInv N (l.foldl (cwStep inst) st) := by
  intro l
  induction l with
  | nil => intro st h; exact h
  | cons t ts ih =>
    intro st h
    rw [List.foldl_cons]
    exact ih _ (cwStep_inv inst N st t h)

/-- `countAll` over a cons of routes. -/
theorem countAll_cons (c : ℕ) (r : List ℕ) (rs : List (List ℕ)) :
    countAll c (r :: rs) = r.count c + countAll c rs := by
  unfold countAll
  rw [List.map_cons, List.sum_cons]

/-- In the initial Clarke-Wright state every customer appears exactly
once. -/
theorem cwInit_count (N c : ℕ) (hc : c ≠ 0) :
    countAll c (cwInit N).routes = if 1 ≤ c ∧ c ≤ N then 1 else 0 := by
  have h1 : (0 == c) = false := by
    rw [beq_eq_false_iff_ne]
    omega
  have hcnt : ∀ i : ℕ, ([0, i, 0] : List ℕ).count c = if i = c then 1 else 0 := by
    intro i
    simp only [List.count_cons, List.count_nil, h1, beq_iff_eq]
    by_cases hic : i = c
    · simp [hic]
    · simp [hic]
  unfold cwInit countAll
  dsimp only
  rw [List.map_map]
  induction N with
  | zero =>
    rw [if_neg (by omega)]
    rfl
  | succ N ihN =>
    rw [List.range'_concat, List.map_append, List.sum_append, ihN]
    simp only [List.map_cons, List.map_nil, List.sum_cons, List.sum_nil,
      Function.comp_apply, hcnt]
    split_ifs <;> omega

/-- The initial Clarke-Wright state satisfies the partition invariant. -/
theorem cwInit_inv (N : ℕ) : CWInv N (cwInit N) := by
  refine ⟨?_, ?_, fun c hc => cwInit_count N c hc⟩
  · unfold cwInit
    dsimp only
    rw [List.length_map, List.length_range']
  · intro r hr
    unfold cwInit at hr
    dsimp only at hr
    obtain ⟨i, _, rfl⟩ := List.mem_map.mp hr
    exact ⟨by norm_num, rfl, rfl⟩

/-- Pruning the dead `[0, 0]` routes does not change any customer count. -/
theorem countAll_filter_dead (c : ℕ) (hc : c ≠ 0) :
    ∀ rs : List (List ℕ),
      countAll c (rs.filter (fun r => r ≠ [0, 0])) = countAll c rs := by
  have hdead : ([0, 0] : List ℕ).count c = 0 := by
    simp [List.count_cons]
    omega
  intro rs
  induction rs with
  | nil => rfl
  | cons r rest ih =>
    rw [List.filter_cons]
    by_cases hr : r = [0, 0]
    · rw [if_neg (by simp [hr]), ih, countAll_cons, hr, hdead, Nat.zero_add]
    · rw [if_pos (by simp [hr]), countAll_cons, countAll_cons, ih]

/-- Clarke-Wright without vehicle-limit truncation returns every customer
exactly once. -/
theorem cw_partition (inst : VRPInstance) (D : ℕ → ℕ → ℚ)
    (halive : (cw_alive inst D).length ≤ inst.num_vehicles)
    (c : ℕ) (hc1 : 1 ≤ c) (hcN : c ≤ inst.customers.length) :
    countAll c (clarke_wright inst D) = 1 := by
  unfold clarke_wright
  rw [if_neg (by omega)]
  unfold cw_alive
  rw [countAll_filter_dead c (by omega)]
  have hinv := cwFold_inv inst inst.customers.length
    (savingsList inst.customers.length D) (cwInit inst.customers.length)
    (cwInit_inv inst.customers.length)
  rw [hinv.2.2 c (by omega), if_pos ⟨hc1, hcN⟩]

/-- A route list demand is nonnegative when all demands are. -/
theorem route_demand_nonneg (r : List ℕ) (nodes : List Node)
    (hnn : ∀ n ∈ nodes, 0 ≤ n.demand) : 0 ≤ route_demand r nodes := by
  induction r with
  | nil => exact le_of_eq rfl
  | cons x t ih =>
    rw [route_demand_cons]
    by_cases hx : x = 0
    · rw [if_pos hx, zero_add]
      exact ih
    · rw [if_neg hx]
      exact add_nonneg (nodeAt_demand_nonneg nodes x hnn) ih

/-- The load of a singleton route is its customer's demand. -/
theorem route_demand_singleton (c : ℕ) (hc : c ≠ 0) (nodes : List Node) :
    route_demand [0, c, 0] nodes = (nodeAt nodes c).demand := by
  rw [show ([0, c, 0] : List ℕ) = 0 :: c :: 0 :: [] from rfl,
    route_demand_cons, route_demand_cons, route_demand_cons]
  simp [hc, route_demand]

/-- The invariant tracked for a customer `c` whose demand exceeds the
capacity: its singleton route is never merged and no other route holds
`c`. -/
def HeavyInv (c : ℕ) (st : CWState) : Prop :=
  st.route_of c < st.routes.length ∧
  st.routes.getD (st.route_of c) [] = [0, c, 0] ∧
  ∀ idx, idx < st.routes.length → idx ≠ st.route_of c →
    c ∉ st.routes.getD idx []

/-- One savings-loop step keeps the over-demand customer isolated. -/
theorem cwStep_heavy (inst : VRPInstance) (c : ℕ) (st : CWState)
    (t : ℚ × ℕ × ℕ) (hc0 : c ≠ 0)
    (hnn : ∀ n ∈ inst.all_nodes, 0 ≤ n.demand)
    (hover : inst.vehicle_capacity < (nodeAt inst.all_nodes c).demand)
    (h : HeavyInv c st) : HeavyInv c (cwStep inst st t) := by
  obtain ⟨hlt, hself, hother⟩ := h
  unfold cwStep
  split
  · exact ⟨hlt, hself, hother⟩
  split
  · exact ⟨hlt, hself, hother⟩
  next hne hfeas =>
    rw [not_not] at hfeas
    obtain ⟨hri, hrj, hload⟩ := feasible_merge_true hfeas
    have hri_ne : st.route_of t.2.1 ≠ st.route_of c := by
      intro heq
      rw [heq, hself, route_demand_singleton c hc0] at hload
      have h2 := route_demand_nonneg (st.routes.getD (st.route_of t.2.2) [])
        inst.all_nodes hnn
      linarith
    have hrj_ne : st.route_of t.2.2 ≠ st.route_of c := by
      intro heq
      rw [heq, hself, route_demand_singleton c hc0] at hload
      have h2 := route_demand_nonneg (st.routes.getD (st.route_of t.2.1) [])
        inst.all_nodes hnn
      linarith
    have hci : c ∉ st.routes.getD (st.route_of t.2.1) [] := hother _ hri hri_ne
    have hcj : c ∉ st.routes.getD (st.route_of t.2.2) [] := hother _ hrj hrj_ne
    have hcnew : c ∉ cwNewRoute st t.2.1 t.2.2 := by
      unfold cwNewRoute cwOrientI cwOrientJ
      intro hmem
      rcases List.mem_append.mp hmem with hm | hm
      · have hm2 := List.mem_of_mem_dropLast hm
        revert hm2
        split
        · intro hm2
          exact hci (List.mem_reverse.mp hm2)
        · intro hm2
          exact hci hm2
      · have hm2 := List.drop_subset 1 _ hm
        revert hm2
        split
        · intro hm2
          exact hcj (List.mem_reverse.mp hm2)
        · intro hm2
          exact hcj hm2
    have hro : (cwMerge st t.2.1 t.2.2).route_of c = st.route_of c := by
      unfold cwMerge
      dsimp only
      rw [if_neg]
      intro hx
      exact hcnew hx.2
    refine ⟨?_, ?_, ?_⟩
    · rw [hro]
      unfold cwMerge
      dsimp only
      rw [List.length_set, List.length_set]
      exact hlt
    · rw [hro]
      unfold cwMerge
      dsimp only
      rw [getD_set_ne _ _ _ _ hrj_ne, getD_set_ne _ _ _ _ hri_ne]
      exact hself
    · intro idx hidx hidxne
      rw [hro] at hidxne
      unfold cwMerge at hidx ⊢
      dsimp only at hidx ⊢
      rw [List.length_set, List.length_set] at hidx
      by_cases hj : idx = st.route_of t.2.2
      · rw [hj, getD_set_self _ _ _ (by rw [List.length_set]; exact hrj)]
        simp [hc0]
      · rw [getD_set_ne _ _ _ _ (Ne.symm hj)]
        by_cases hi : idx = st.route_of t.2.1
        · rw [hi, getD_set_self _ _ _ hri]
          exact hcnew
        · rw [getD_set_ne _ _ _ _ (Ne.symm hi)]
          exact hother idx hidx hidxne

/-- The over-demand customer starts isolated. -/
theorem cwInit_heavy (N c : ℕ) (hc1 : 1 ≤ c) (hcN : c ≤ N) :
    HeavyInv c (cwInit N) := by
  unfold cwInit HeavyInv
  dsimp only
  refine ⟨?_, ?_, ?_⟩
  · rw [List.length_map, List.length_range']
    omega
  · have hlt : c - 1 < ((List.range' 1 N).map
        (fun i => ([0, i, 0] : List ℕ))).length := by
      rw [List.length_map, List.length_range']
      omega
    rw [List.getD_eq_getElem _ _ hlt, List.getElem_map, List.getElem_range']
    congr 2
    omega
  · intro idx hidx hne
    rw [List.length_map, List.length_range'] at hidx
    have hlt : idx < ((List.range' 1 N).map
        (fun i => ([0, i, 0] : List ℕ))).length := by
      rw [List.length_map, List.length_range']
      omega
    rw [List.getD_eq_getElem _ _ hlt, List.getElem_map, List.getElem_range']
    intro hmem
    simp at hmem
    rcases hmem with h | h <;> omega

/-- The savings loop keeps the over-demand customer isolated. -/
theorem cwFold_heavy (inst : VRPInstance) (c : ℕ) (hc0 : c ≠ 0)
    (hnn : ∀ n ∈ inst.all_nodes, 0 ≤ n.demand)
    (hover : inst.vehicle_capacity < (nodeAt inst.all_nodes c).demand) :
    ∀ (l : List (ℚ × ℕ × ℕ)) (st : CWState), HeavyInv c st →
      HeavyInv c (l.foldl (cwStep inst) st) := by
  intro l
  induction l with
  | nil => exact fun st h => h
  | cons t ts ih =>
    intro st h
    rw [List.foldl_cons]
    exact ih _ (cwStep_heavy inst c st t hc0 hnn hover h)

/-- All routes of a Clarke-Wright state fit the capacity. -/
def CWCap (inst : VRPInstance) (st : CWState) : Prop :=
  ∀ r ∈ st.routes, route_demand r inst.all_nodes ≤ inst.vehicle_capacity

/-- One savings-loop step keeps every route within capacity (the merge is
guarded by the capacity check). -/
theorem cwStep_cap (inst : VRPInstance) (N : ℕ) (st : CWState) (t : ℚ × ℕ × ℕ)
    (hinv : CWInv N st) (hnn : ∀ n ∈ inst.all_nodes, 0 ≤ n.demand)
    (hcap : CWCap inst st) : CWCap inst (cwStep inst st t) := by
  unfold cwStep
  split
  · exact hcap
  split
  · exact hcap
  next hne hfeas =>
    rw [not_not] at hfeas
    obtain ⟨hri, hrj, hload⟩ := feasible_merge_true hfeas
    have hoki : RouteOK (st.routes.getD (st.route_of t.2.1) []) :=
      hinv.2.1 _ (getD_mem_of_lt _ _ hri)
    have hokj : RouteOK (st.routes.getD (st.route_of t.2.2) []) :=
      hinv.2.1 _ (getD_mem_of_lt _ _ hrj)
    have hoi : RouteOK (cwOrientI st t.2.1) := by
      unfold cwOrientI
      split
      · exact hoki.reverse
      · exact hoki
    have hoj : RouteOK (cwOrientJ st t.2.2) := by
      unfold cwOrientJ
      split
      · exact hokj.reverse
      · exact hokj
    have hdi : route_demand (cwOrientI st t.2.1) inst.all_nodes
        = route_demand (st.routes.getD (st.route_of t.2.1) []) inst.all_nodes := by
      unfold cwOrientI
      split
      · exact route_demand_perm inst.all_nodes (List.reverse_perm _)
      · rfl
    have hdj : route_demand (cwOrientJ st t.2.2) inst.all_nodes
        = route_demand (st.routes.getD (st.route_of t.2.2) []) inst.all_nodes := by
      unfold cwOrientJ
      split
      · exact route_demand_perm inst.all_nodes (List.reverse_perm _)
      · rfl
    have hnewd : route_demand (cwNewRoute st t.2.1 t.2.2) inst.all_nodes
        ≤ inst.vehicle_capacity := by
      unfold cwNewRoute
      rw [newRoute_demand hoi hoj, hdi, hdj]
      exact hload
    have hcapnn : (0 : ℤ) ≤ inst.vehicle_capacity := by
      have h1 := route_demand_nonneg (st.routes.getD (st.route_of t.2.1) [])
        inst.all_nodes hnn
      have h2 := route_demand_nonneg (st.routes.getD (st.route_of t.2.2) [])
        inst.all_nodes hnn
      linarith
    have hdead : route_demand [0, 0] inst.all_nodes ≤ inst.vehicle_capacity := by
      have : route_demand [0, 0] inst.all_nodes = 0 := by
        rw [show ([0, 0] : List ℕ) = 0 :: 0 :: [] from rfl,
          route_demand_cons, route_demand_cons]
        simp [route_demand]
      rw [this]
      exact hcapnn
    unfold cwMerge CWCap
    dsimp only
    exact loads_set _ _ _ _ _ (loads_set _ _ _ _ _ hcap hnewd) hdead

/-- The savings loop keeps all routes within capacity. -/
theorem cwFold_cap (inst : VRPInstance) (N : ℕ)
    (hnn : ∀ n ∈ inst.all_nodes, 0 ≤ n.demand) :
    ∀ (l : List (ℚ × ℕ × ℕ)) (st : CWState), CWInv N st → CWCap inst st →
      CWInv N (l.foldl (cwStep inst) st) ∧ CWCap inst (l.foldl (cwStep inst) st) := by
  intro l
  induction l with
  | nil => exact fun st h1 h2 => ⟨h1, h2⟩
  | cons t ts ih =>
    intro st h1 h2
    rw [List.foldl_cons]
    exact ih _ (cwStep_inv inst N st t h1) (cwStep_cap inst N st t h1 hnn h2)

/-- Reading a customer of the instance through the full node list. -/
theorem nodeAt_all_nodes (inst : VRPInstance) (i : ℕ) (h1 : 1 ≤ i) :
    nodeAt inst.all_nodes i = nodeAt inst.customers (i - 1) := by
  unfold nodeAt VRPInstance.all_nodes
  conv_lhs => rw [show i = (i - 1) + 1 from by omega]
  rw [List.getD_cons_succ]

/-- The initial singleton routes fit the capacity when every customer's
demand does. -/
theorem cwInit_cap (inst : VRPInstance)
    (hdc : ∀ n ∈ inst.customers, n.demand ≤ inst.vehicle_capacity) :
    CWCap inst (cwInit inst.customers.length) := by
  intro r hr
  unfold cwInit at hr
  dsimp only at hr
  obtain ⟨i, hi, rfl⟩ := List.mem_map.mp hr
  rw [List.mem_range'_1] at hi
  rw [route_demand_singleton i (by omega) inst.all_nodes,
    nodeAt_all_nodes inst i (by omega)]
  have hlt : i - 1 < inst.customers.length := by omega
  unfold nodeAt
  rw [List.getD_eq_getElem _ _ hlt]
  exact hdc _ (List.getElem_mem hlt)

/-- Stable-descending insertion only inserts the given element. -/
theorem mem_insDesc {α : Type} (key : α → ℚ) (a x : α) :
    ∀ l : List α, x ∈ insDesc key a l → x = a ∨ x ∈ l := by
  intro l
  induction l with
  | nil =>
    intro h
    simp [insDesc] at h
    exact Or.inl h
  | cons y ys ih =>
    intro h
    unfold insDesc at h
    split at h
    · rcases List.mem_cons.mp h with h2 | h2
      · exact Or.inr (List.mem_cons.mpr (Or.inl h2))
      · rcases ih h2 with h3 | h3
        · exact Or.inl h3
        · exact Or.inr (List.mem_cons.mpr (Or.inr h3))
    · rcases List.mem_cons.mp h with h2 | h2
      · exact Or.inl h2
      · exact Or.inr h2

/-- The stable descending sort is made of the input's elements. -/
theorem mem_sortDesc {α : Type} (key : α → ℚ) (x : α) :
    ∀ l : List α, x ∈ sortDesc key l → x ∈ l := by
  intro l
  induction l with
  | nil => intro h; exact absurd h (by simp [sortDesc])
  | cons y ys ih =>
    intro h
    unfold sortDesc at h
    rw [List.foldr_cons] at h
    rcases mem_insDesc key y x _ h with h2 | h2
    · exact List.mem_cons.mpr (Or.inl h2)
    · exact List.mem_cons.mpr (Or.inr (ih h2))

/-- Every route returned by Clarke-Wright is within capacity, for
nonnegative demands each at most the capacity. -/
theorem cw_loads (inst : VRPInstance) (D : ℕ → ℕ → ℚ)
    (hnn : ∀ n ∈ inst.all_nodes, 0 ≤ n.demand)
    (hdc : ∀ n ∈ inst.customers, n.demand ≤ inst.vehicle_capacity) :
    ∀ r ∈ clarke_wright inst D,
      route_demand r inst.all_nodes ≤ inst.vehicle_capacity := by
  have hfold := cwFold_cap inst inst.customers.length hnn
    (savingsList inst.customers.length D) (cwInit inst.customers.length)
    (cwInit_inv inst.customers.length) (cwInit_cap inst hdc)
  have halive : ∀ r ∈ cw_alive inst D,
      route_demand r inst.all_nodes ≤ inst.vehicle_capacity := by
    intro r hr
    unfold cw_alive at hr
    exact hfold.2 r (List.mem_of_mem_filter hr)
  intro r hr
  unfold clarke_wright at hr
  split at hr
  · exact halive r (mem_sortDesc _ r _ (List.take_subset _ _ hr))
  · exact halive r hr

/-! ### C2: a customer whose demand exceeds the capacity -/

/-- C2 (amended): construction does not fail on an over-demand customer.
For nonnegative demands, a customer `c` with demand above the capacity is
never merged: its singleton route `[0, c, 0]` - whose load exceeds the
capacity - survives to the pruned route set, no other surviving route
contains `c`, and when the surviving route count is within the vehicle
limit the over-loaded singleton is part of the returned solution (the
customer is silently routed; no error is signalled). -/
theorem c2_overdemand_silently_routed (inst : VRPInstance) (D : ℕ → ℕ → ℚ)
    (c : ℕ) (hc1 : 1 ≤ c) (hcN : c ≤ inst.customers.length)
    (hnn : ∀ n ∈ inst.all_nodes, 0 ≤ n.demand)
    (hover : inst.vehicle_capacity < (nodeAt inst.all_nodes c).demand) :
    [0, c, 0] ∈ cw_alive inst D ∧
    inst.vehicle_capacity < route_demand [0, c, 0] inst.all_nodes ∧
    (∀ r ∈ cw_alive inst D, c ∈ r → r = [0, c, 0]) ∧
    ((cw_alive inst D).length ≤ inst.num_vehicles →
      [0, c, 0] ∈ clarke_wright inst D) := by
  obtain ⟨hlt, hself, hother⟩ := cwFold_heavy inst c (by omega) hnn hover
    (savingsList inst.customers.length D) (cwInit inst.customers.length)
    (cwInit_heavy inst.customers.length c hc1 hcN)
  have hmem_alive : [0, c, 0] ∈ cw_alive inst D := by
    unfold cw_alive
    apply List.mem_filter.mpr
    refine ⟨?_, by simp⟩
    rw [← hself]
    exact getD_mem_of_lt _ _ hlt
  refine ⟨hmem_alive, ?_, ?_, ?_⟩
  · rw [route_demand_singleton c (by omega)]
    exact hover
  · intro r hr hcr
    unfold cw_alive at hr
    obtain ⟨n, hn, heq⟩ := List.mem_iff_getElem.mp (List.mem_of_mem_filter hr)
    by_cases hni : n = (((savingsList inst.customers.length D).foldl
        (cwStep inst) (cwInit inst.customers.length))).route_of c
    · rw [← heq, ← List.getD_eq_getElem _ [] hn, hni]
      exact hself
    · exfalso
      apply hother n hn hni
      rw [List.getD_eq_getElem _ [] hn, heq]
      exact hcr
  · intro hfit
    unfold clarke_wright
    rw [if_neg (by omega)]
    exact hmem_alive

/-! ### Annealing preserves any property the two operators preserve -/

theorem saStep_preserve (inst : VRPInstance) (D : ℕ → ℕ → ℚ) (coin : ℕ → Bool)
    (alpha : ℚ) (P : List (List ℕ) → Prop)
    (hP2 : ∀ rs, P rs → P (improve_two_opt_intra rs D 1).1)
    (hPr : ∀ rs, P rs → P (relocate_best_improvement rs inst D).1)
    (st : SAState) (hc : P st.cur) (hb : P st.best) :
    P (saStep inst D coin alpha st).cur ∧ P (saStep inst D coin alpha st).best := by
  unfold saStep
  generalize hgc : (if (st.iters + 1) % 2 = 0 then (improve_two_opt_intra st.cur D 1).1
      else (relocate_best_improvement st.cur inst D).1) = cand
  have hcand : P cand := by
    rw [← hgc]
    split
    · exact hP2 _ hc
    · exact hPr _ hc
  by_cases hacc : total_cost cand inst D - st.curCost ≤ 0 ∨ coin (st.iters + 1)
  · rw [if_pos hacc]
    refine ⟨hcand, ?_⟩
    dsimp only
    split
    · exact hcand
    · exact hb
  · rw [if_neg hacc]
    exact ⟨hc, hb⟩

theorem saLoop_preserve (inst : VRPInstance) (D : ℕ → ℕ → ℚ) (coin : ℕ → Bool)
    (alpha t_end : ℚ) (clock : ℕ → ℚ) (P : List (List ℕ) → Prop)
    (hP2 : ∀ rs, P rs → P (improve_two_opt_intra rs D 1).1)
    (hPr : ∀ rs, P rs → P (relocate_best_improvement rs inst D).1) :
    ∀ (fuel : ℕ) (st : SAState), P st.cur → P st.best →
      P (saLoop inst D coin alpha t_end clock fuel st).best := by
  intro fuel
  induction fuel with
  | zero => exact fun st _ hb => hb
  | succ n ih =>
    intro st hc hb
    unfold saLoop
    split
    · obtain ⟨h1, h2⟩ := saStep_preserve inst D coin alpha P hP2 hPr st hc hb
      exact ih _ h1 h2
    · exact hb

/-- Whatever route-list property both proposal operators preserve, the
annealing result inherits from its input. -/
theorem sa_preserve (routes : List (List ℕ)) (inst : VRPInstance)
    (D : ℕ → ℕ → ℚ) (budget T0 alpha t0 : ℚ) (clock : ℕ → ℚ) (coin : ℕ → Bool)
    (fuel : ℕ) (P : List (List ℕ) → Prop)
    (hP2 : ∀ rs, P rs → P (improve_two_opt_intra rs D 1).1)
    (hPr : ∀ rs, P rs → P (relocate_best_improvement rs inst D).1)
    (h0 : P routes) :
    P (simulated_annealing routes inst D budget T0 alpha t0 clock coin fuel) :=
  saLoop_preserve inst D coin alpha (t0 + budget) clock P hP2 hPr fuel _ h0 h0

/-- Annealing preserves all stop-occurrence counts of its input. -/
theorem sa_countAll (routes : List (List ℕ)) (inst : VRPInstance)
    (D : ℕ → ℕ → ℚ) (budget T0 alpha t0 : ℚ) (clock : ℕ → ℚ) (coin : ℕ → Bool)
    (fuel : ℕ) (c : ℕ) :
    countAll c (simulated_annealing routes inst D budget T0 alpha t0 clock coin fuel)
      = countAll c routes :=
  sa_preserve routes inst D budget T0 alpha t0 clock coin fuel
    (fun rs => countAll c rs = countAll c routes)
    (fun rs h => (twoOpt_countAll rs D 1 c).trans h)
    (fun rs h => (relocate_countAll rs inst D c).trans h)
    rfl

/-- Annealing keeps all route loads within capacity. -/
theorem sa_loads (routes : List (List ℕ)) (inst : VRPInstance)
    (D : ℕ → ℕ → ℚ) (budget T0 alpha t0 : ℚ) (clock : ℕ → ℚ) (coin : ℕ → Bool)
    (fuel : ℕ) (hnn : ∀ n ∈ inst.all_nodes, 0 ≤ n.demand)
    (hall : ∀ r ∈ routes, route_demand r inst.all_nodes ≤ inst.vehicle_capacity) :
    ∀ r ∈ simulated_annealing routes inst D budget T0 alpha t0 clock coin fuel,
      route_demand r inst.all_nodes ≤ inst.vehicle_capacity :=
  sa_preserve routes inst D budget T0 alpha t0 clock coin fuel
    (fun rs => ∀ r ∈ rs, route_demand r inst.all_nodes ≤ inst.vehicle_capacity)
    (fun rs h => twoOpt_loads rs D 1 inst.all_nodes inst.vehicle_capacity h)
    (fun rs h => relocate_loads rs inst D hnn h)
    hall

/-! ### C7: exactness of the 2-opt delta -/

/-- Splitting the edge sum of a route at an interior stop. -/
theorem rd_append_cons (D : ℕ → ℕ → ℚ) :
    ∀ (xs : List ℕ) (y : ℕ) (zs : List ℕ),
      route_distance (xs ++ y :: zs) D
        = route_distance (xs ++ [y]) D + route_distance (y :: zs) D := by
  intro xs
  induction xs with
  | nil =>
    intro y zs
    simp [route_distance]
  | cons x xs ih =>
    intro y zs
    cases xs with
    | nil => simp [route_distance]
    | cons x2 xs2 =>
      simp only [List.cons_append, route_distance, List.append_eq] at ih ⊢
      rw [ih y zs]
      ring

/-- Appending a final stop adds one closing edge. -/
theorem rd_concat (D : ℕ → ℕ → ℚ) :
    ∀ (l : List ℕ), l ≠ [] → ∀ d : ℕ,
      route_distance (l ++ [d]) D = route_distance l D + D (l.getLastD 0) d := by
  intro l
  induction l with
  | nil => intro h; exact absurd rfl h
  | cons x xs ih =>
    intro _ d
    cases xs with
    | nil => simp [route_distance]
    | cons y t =>
      simp only [List.cons_append, route_distance, List.append_eq]
      simp only [List.cons_append] at ih
      rw [ih (by simp) d]
      simp only [List.getLastD_cons]
      ring

/-- Reversing a route keeps its length under a symmetric matrix. -/
theorem rd_reverse (D : ℕ → ℕ → ℚ) (hsym : ∀ a b, D a b = D b a) :
    ∀ l : List ℕ, route_distance l.reverse D = route_distance l D := by
  intro l
  induction l with
  | nil => rfl
  | cons x l ih =>
    cases l with
    | nil => rfl
    | cons y t =>
      rw [List.reverse_cons, rd_concat D (y :: t).reverse (by simp) x, ih]
      have hlast : ((y :: t).reverse).getLastD 0 = y := by
        rw [List.reverse_cons, List.getLastD_concat]
      rw [hlast]
      show route_distance (y :: t) D + D y x = D x y + route_distance (y :: t) D
      rw [hsym y x]
      ring

/-- The edge sum of `a :: (l ++ d :: suf)` splits into the entry edge, the
block `l`, the exit edge and the tail. -/
theorem rd_block (D : ℕ → ℕ → ℚ) (a d : ℕ) (l suf : List ℕ) (hl : l ≠ []) :
    route_distance (a :: (l ++ d :: suf)) D
      = D a (l.headD 0) + route_distance l D + D (l.getLastD 0) d
        + route_distance (d :: suf) D := by
  cases l with
  | nil => exact absurd rfl hl
  | cons x xs =>
    have h1 : route_distance (a :: ((x :: xs) ++ d :: suf)) D
        = D a x + route_distance ((x :: xs) ++ d :: suf) D := by
      simp only [List.cons_append, route_distance, List.append_eq]
    rw [h1, rd_append_cons D (x :: xs) d suf, rd_concat D (x :: xs) (by simp) d]
    simp only [List.headD_cons]
    ring

/-- C7: for every route (depot at both ends), symmetric distance matrix and
indices `1 ≤ i < k ≤ len(route) - 2`, the incremental `two_opt_delta` equals
the full distance of the reversed-segment route minus the full distance of
the original route - exactly, hence in particular within the claimed 1e-6
tolerance. -/
theorem c7_two_opt_delta_exact (route : List ℕ) (i k : ℕ) (D : ℕ → ℕ → ℚ)
    (hsym : ∀ a b, D a b = D b a)
    (hdep : route.headD 0 = 0 ∧ route.getLastD 0 = 0)
    (hi : 1 ≤ i) (hik : i < k) (hk : k ≤ route.length - 2) :
    two_opt_delta route i k D
      = route_distance (apply_two_opt route i k) D - route_distance route D := by
  -- the depot condition narrows the claim's scope but is not needed for the
  -- identity, which holds for any stops at the route ends
  clear hdep
  have hn : k + 2 ≤ route.length := by omega
  have hi1 : i - 1 < route.length := by omega
  have hilt : i < route.length := by omega
  have hklt : k < route.length := by omega
  have hk1 : k + 1 < route.length := by omega
  -- the decomposition pieces
  have hdrop1 : route.drop (i - 1) = route.getD (i - 1) 0 :: route.drop i := by
    rw [List.drop_eq_getElem_cons hi1, show i - 1 + 1 = i from by omega,
      List.getD_eq_getElem route 0 hi1]
  have hdrop2 : route.drop i = route.getD i 0 :: route.drop (i + 1) := by
    rw [List.drop_eq_getElem_cons hilt, List.getD_eq_getElem route 0 hilt]
  have hdrop3 : route.drop (k + 1) = route.getD (k + 1) 0 :: route.drop (k + 2) := by
    rw [List.drop_eq_getElem_cons hk1, List.getD_eq_getElem route 0 hk1]
  have hmidlen : i + (k + 1 - i) = k + 1 := by omega
  have hmidsplit : (route.drop i).take (k + 1 - i) ++ route.drop (k + 1)
      = route.drop i := by
    have h1 : (route.drop i).drop (k + 1 - i) = route.drop (k + 1) := by
      rw [List.drop_drop, hmidlen]
    rw [← h1, List.take_append_drop]
  -- the middle block is nonempty, starts at stop i and ends at stop k
  have hmid1 : (route.drop i).take (k + 1 - i)
      = route.getD i 0 :: (route.drop (i + 1)).take (k - i) := by
    rw [hdrop2, show k + 1 - i = (k - i) + 1 from by omega, List.take_succ_cons]
  have hmid2 : (route.drop i).take (k + 1 - i)
      = (route.drop i).take (k - i) ++ [route.getD k 0] := by
    have h3 : k - i < (route.drop i).length := by
      rw [List.length_drop]
      omega
    rw [show k + 1 - i = (k - i) + 1 from by omega, List.take_succ,
      List.getElem?_eq_getElem h3]
    simp only [Option.toList_some]
    rw [List.getElem_drop]
    simp only [show i + (k - i) = k from by omega]
    rw [List.getD_eq_getElem route 0 hklt]
  have hmidne : (route.drop i).take (k + 1 - i) ≠ [] := by
    rw [hmid1]
    simp
  -- full decomposition of the route and of its 2-opt image
  have htake : route.take i = route.take (i - 1) ++ [route.getD (i - 1) 0] := by
    conv_lhs => rw [show i = (i - 1) + 1 from by omega]
    rw [List.take_succ, List.getElem?_eq_getElem hi1]
    simp only [Option.toList_some]
    rw [List.getD_eq_getElem route 0 hi1]
  have hroute : route = route.take (i - 1)
      ++ route.getD (i - 1) 0
        :: ((route.drop i).take (k + 1 - i) ++ route.getD (k + 1) 0 :: route.drop (k + 2)) := by
    conv_lhs => rw [← List.take_append_drop (i - 1) route]
    rw [hdrop1, ← hdrop3, hmidsplit]
  have happly : apply_two_opt route i k = route.take (i - 1)
      ++ route.getD (i - 1) 0
        :: (((route.drop i).take (k + 1 - i)).reverse
            ++ route.getD (k + 1) 0 :: route.drop (k + 2)) := by
    unfold apply_two_opt
    rw [htake, hdrop3]
    simp [List.append_assoc, List.cons_append, List.singleton_append]
  -- head and last stops of the block and of its reversal
  have hheadm : ((route.drop i).take (k + 1 - i)).headD 0 = route.getD i 0 := by
    rw [hmid1]
    rfl
  have hlastm : ((route.drop i).take (k + 1 - i)).getLastD 0 = route.getD k 0 := by
    rw [hmid2, List.getLastD_concat]
  have hheadr : (((route.drop i).take (k + 1 - i)).reverse).headD 0
      = route.getD k 0 := by
    rw [hmid2, List.reverse_append]
    rfl
  have hlastr : (((route.drop i).take (k + 1 - i)).reverse).getLastD 0
      = route.getD i 0 := by
    rw [hmid1, List.reverse_cons, List.getLastD_concat]
  -- distance of both routes via the block decomposition
  have hrd1 : route_distance route D
      = route_distance (route.take (i - 1) ++ [route.getD (i - 1) 0]) D
        + (D (route.getD (i - 1) 0) (route.getD i 0)
          + route_distance ((route.drop i).take (k + 1 - i)) D
          + D (route.getD k 0) (route.getD (k + 1) 0)
          + route_distance (route.getD (k + 1) 0 :: route.drop (k + 2)) D) := by
    conv_lhs => rw [hroute]
    rw [rd_append_cons D (route.take (i - 1)) (route.getD (i - 1) 0) _]
    rw [rd_block D _ _ _ _ hmidne, hheadm, hlastm]
  have hrd2 : route_distance (apply_two_opt route i k) D
      = route_distance (route.take (i - 1) ++ [route.getD (i - 1) 0]) D
        + (D (route.getD (i - 1) 0) (route.getD k 0)
          + route_distance ((route.drop i).take (k + 1 - i)) D
          + D (route.getD i 0) (route.getD (k + 1) 0)
          + route_distance (route.getD (k + 1) 0 :: route.drop (k + 2)) D) := by
    rw [happly]
    rw [rd_append_cons D (route.take (i - 1)) (route.getD (i - 1) 0) _]
    rw [rd_block D _ _ _ _ (by simpa using hmidne), hheadr, hlastr,
      rd_reverse D hsym]
  have hguard : ¬ (i < 1 ∨ route.length - 1 ≤ k ∨ k ≤ i) := by omega
  unfold two_opt_delta
  rw [if_neg hguard, hrd1, hrd2]
  ring

/-- Coordinates for the C7 witness: depot at 0, customers at 4, 3, 1. -/
def posC7 (i : ℕ) : ℚ := ([0, 4, 3, 1] : List ℚ).getD i 0

/-- Distances for the C7 witness: 1D Euclidean, symmetric by construction. -/
def DC7 (i j : ℕ) : ℚ := |posC7 i - posC7 j|

/-- Witness for `c7_two_opt_delta_exact`: the route `[0, 1, 2, 3, 0]` with
`(i, k) = (1, 2)` under the 1D distances of coordinates 0, 4, 3, 1. -/
theorem c7_two_opt_delta_exact_witness :
    two_opt_delta [0, 1, 2, 3, 0] 1 2 DC7
      = route_distance (apply_two_opt [0, 1, 2, 3, 0] 1 2) DC7
        - route_distance [0, 1, 2, 3, 0] DC7 :=
  c7_two_opt_delta_exact [0, 1, 2, 3, 0] 1 2 DC7
    (fun a b => abs_sub_comm (posC7 a) (posC7 b))
    (by constructor <;> rfl) (by norm_num) (by norm_num) (by norm_num)

/-! ### C8: the fairness penalty -/

/-- Population variance only depends on the multiset of values. -/
theorem popVar_perm {l l' : List ℚ} (h : l.Perm l') : popVar l = popVar l' := by
  unfold popVar
  have h1 : l.sum = l'.sum := h.sum_eq
  have h2 : (l.length : ℚ) = (l'.length : ℚ) := by rw [h.length_eq]
  rw [h1, h2, (h.map (fun x => (x - l'.sum / (l'.length : ℚ)) ^ 2)).sum_eq]

/-- Every zone id lies in the `nz * nz` cell grid. -/
theorem zone_id_lt (nodes : List Node) (nz i : ℕ) (h2 : 2 ≤ nz) :
    zone_id nodes nz i < nz * nz := by
  unfold zone_id
  have hx : min (searchRight (gridEdges (listMin (nodes.map (fun n => n.x)))
      (listMax (nodes.map (fun n => n.x))) nz) (nodeAt nodes i).x - 1) (nz - 1)
      ≤ nz - 1 := min_le_right _ _
  have hy : min (searchRight (gridEdges (listMin (nodes.map (fun n => n.y)))
      (listMax (nodes.map (fun n => n.y))) nz) (nodeAt nodes i).y - 1) (nz - 1)
      ≤ nz - 1 := min_le_right _ _
  calc min (searchRight _ (nodeAt nodes i).y - 1) (nz - 1) * nz
        + min (searchRight _ (nodeAt nodes i).x - 1) (nz - 1)
      < (min (searchRight _ (nodeAt nodes i).y - 1) (nz - 1) + 1) * nz := by
        rw [Nat.add_mul, Nat.one_mul]
        exact Nat.add_lt_add_left (by omega) _
    _ ≤ nz * nz := Nat.mul_le_mul_right nz (by omega)

/-- Every recorded visit's zone id is a cell of the grid. -/
theorem zoneVisits_lt (routes : List (List ℕ)) (nodes : List Node) (nz : ℕ)
    (h2 : 2 ≤ nz) : ∀ z ∈ zoneVisits routes nodes nz, z < nz * nz := by
  intro z hz
  obtain ⟨r, _, hrz⟩ := List.mem_flatMap.mp hz
  obtain ⟨i, _, rfl⟩ := List.mem_map.mp hrz
  exact zone_id_lt nodes nz i h2

/-- The code's fairness penalty equals the population variance of the visit
counts over exactly the visited cells of the grid. -/
theorem fairness_penalty_eq_visited (routes : List (List ℕ)) (nodes : List Node)
    (nz : ℕ) (h2 : 2 ≤ nz) :
    fairness_penalty routes nodes nz = fairnessVisitedSpec routes nodes nz := by
  unfold fairness_penalty fairnessVisitedSpec
  rw [if_neg (by omega : ¬ nz ≤ 1)]
  by_cases hz : zoneVisits routes nodes nz = []
  · rw [if_pos hz, if_pos hz]
  · rw [if_neg hz, if_neg hz]
    apply popVar_perm
    apply List.Perm.map
    apply (List.perm_ext_iff_of_nodup (List.nodup_dedup _)
      ((List.nodup_range _).filter _)).mpr
    intro z
    simp only [List.mem_dedup, List.mem_filter, List.mem_range,
      decide_eq_true_eq, List.count_pos_iff]
    constructor
    · intro hmem
      exact ⟨zoneVisits_lt routes nodes nz h2 z hmem, hmem⟩
    · intro hmem
      exact hmem.2

/-- C8 (amended): for positive fairness weight the fairness term added to
the cost is the weight times the population variance of the per-cell visit
counts over only the VISITED cells of the fixed 4-by-4 grid (cells with zero
visits are left out of the variance), and a solution with zero customers
contributes zero fairness penalty. -/
theorem c8_fairness_amended (routes : List (List ℕ)) (inst : VRPInstance)
    (D : ℕ → ℕ → ℚ) (hmu : 0 < inst.mu_fair) :
    total_cost routes inst D
      = (routes.map (fun r => route_distance r D)).sum
        + inst.lambda_tw * (if 0 < inst.lambda_tw then
            (routes.map (fun r => time_window_penalty r inst.all_nodes D)).sum else 0)
        + inst.mu_fair * fairnessVisitedSpec routes inst.all_nodes 4 ∧
    ((∀ r ∈ routes, ∀ i ∈ r, i = 0) →
      fairness_penalty routes inst.all_nodes 4 = 0) := by
  constructor
  · unfold total_cost
    rw [if_pos hmu, fairness_penalty_eq_visited routes inst.all_nodes 4 (by omega)]
  · intro hdep
    unfold fairness_penalty
    rw [if_neg (by omega : ¬ (4 : ℕ) ≤ 1)]
    have hz : zoneVisits routes inst.all_nodes 4 = [] := by
      unfold zoneVisits
      rw [List.flatMap_eq_nil_iff]
      intro r hr
      rw [List.map_eq_nil_iff, List.filter_eq_nil_iff]
      intro i hi
      simpa using hdep r hr i hi
    rw [if_pos hz]

/-- Instance for C8: depot at the origin, two customers at the same point
(1, 1), unit fairness weight. -/
def instC8 : VRPInstance :=
  ⟨⟨0, 0, 0, 0, none, none, 0⟩,
   [⟨1, 1, 1, 1, none, none, 0⟩, ⟨2, 1, 1, 1, none, none, 0⟩], 100, 5, 0, 1⟩

/-- Zero distances for C8 (only the fairness term is of interest). -/
def DC8 (_ _ : ℕ) : ℚ := 0

/-- Both C8 customers fall in the top-right cell 15 of the 4-by-4 grid. -/
theorem zoneVisitsC8 : zoneVisits [[0, 1, 2, 0]] instC8.all_nodes 4 = [15, 15] := by
  norm_num [zoneVisits, zone_id, searchRight, gridEdges, listMin, listMax,
    nodeAt, VRPInstance.all_nodes, instC8, List.getD, List.range_succ,
    List.countP_cons, List.countP_nil]

/-- C8 (counterexample): with fairness weight 1 and both customers in one
cell, the code's cost carries a zero fairness term (variance of the single
visited cell's count), while the claim's all-cells variance over the 16
grid cells is 15/64: empty cells are NOT included by the code. -/
theorem c8_empty_cells_excluded :
    instC8.mu_fair = 1 ∧
    total_cost [[0, 1, 2, 0]] instC8 DC8 = 0 ∧
    fairnessGridSpec [[0, 1, 2, 0]] instC8.all_nodes 4 = 15 / 64 := by
  have hd : ([15, 15] : List ℕ).dedup = [15] := by decide
  have hfair : fairness_penalty [[0, 1, 2, 0]] instC8.all_nodes 4 = 0 := by
    unfold fairness_penalty
    rw [zoneVisitsC8, if_neg (by norm_num : ¬ (4 : ℕ) ≤ 1),
      if_neg (by simp : ¬ ([15, 15] : List ℕ) = []), hd]
    norm_num [popVar]
  refine ⟨rfl, ?_, ?_⟩
  · unfold total_cost
    rw [hfair]
    norm_num [route_distance, DC8]
    norm_num [instC8]
  · unfold fairnessGridSpec
    rw [zoneVisitsC8]
    norm_num [popVar, List.range_succ, List.count_cons, List.count_nil]

/-- Witness for `c8_fairness_amended` at a concrete instance with fairness
weight 1. -/
theorem c8_fairness_amended_witness :
    0 < instC8.mu_fair ∧
    total_cost [[0, 1, 2, 0]] instC8 DC8
      = ([[0, 1, 2, 0]].map (fun r => route_distance r DC8)).sum
        + instC8.lambda_tw * (if 0 < instC8.lambda_tw then
            ([[0, 1, 2, 0]].map
              (fun r => time_window_penalty r instC8.all_nodes DC8)).sum else 0)
        + instC8.mu_fair * fairnessVisitedSpec [[0, 1, 2, 0]] instC8.all_nodes 4 :=
  ⟨by norm_num [instC8],
    (c8_fairness_amended [[0, 1, 2, 0]] instC8 DC8 (by norm_num [instC8])).1⟩

/-- Instance for C9: customer 1 has an open time but no close time,
customer 2 has the window [0, 1]; travel times 5 and 1; positive
time-window weight. -/
def instC9 : VRPInstance :=
  ⟨⟨0, 0, 0, 0, none, none, 0⟩,
   [⟨1, 5, 0, 1, some 10, none, 0⟩, ⟨2, 6, 0, 1, some 0, some 1, 0⟩], 100, 5, 1, 0⟩

/-- Distances for C9 (coordinates 0, 5, 6 on the line). -/
def DC9 (i j : ℕ) : ℚ := matD [[0, 5, 6], [5, 0, 1], [6, 1, 0]] i j

/-- C9 (counterexample): on the route `[0, 1, 2, 0]` the code's penalty is 5
but the claim's simulation - which waits at every node with an open time,
even when no close time is present - yields 10: the code skips the entire
window step at customer 1 because its close time is absent. -/
theorem c9_half_window_ignored :
    0 < instC9.lambda_tw ∧
    time_window_penalty [0, 1, 2, 0] instC9.all_nodes DC9 = 5 ∧
    twSimClaim instC9.all_nodes DC9 0 [0, 1, 2, 0] = 10 := by
  refine ⟨by norm_num [instC9], ?_, ?_⟩
  · norm_num [time_window_penalty, twStep, nodeAt, VRPInstance.all_nodes, instC9,
      DC9, matD, List.getD, List.foldl_cons, List.foldl_nil]
  · norm_num [twSimClaim, twWait, twLate, nodeAt, VRPInstance.all_nodes, instC9,
      DC9, matD, List.getD]

/-! ### C2, C3, C4, C5: concrete instances -/

/-- Instance for C2: one customer with demand 5 against capacity 3. -/
def instC2 : VRPInstance := ⟨plainNode 0 0 0, [plainNode 1 1 5], 3, 2, 0, 0⟩

/-- Distances for C2 (coordinates 0, 1 on the line). -/
def DC2 (i j : ℕ) : ℚ := matD [[0, 1], [1, 0]] i j

/-- C2 (counterexample): on an instance whose single customer demands 5
with capacity 3, `clarke_wright` raises no error and returns the customer
silently routed in an over-capacity singleton route, instead of failing
fast. -/
theorem c2_overdemand_not_rejected :
    clarke_wright instC2 DC2 = [[0, 1, 0]] ∧
    instC2.vehicle_capacity < route_demand [0, 1, 0] instC2.all_nodes := by
  constructor
  · norm_num [clarke_wright, cw_alive, savingsList, cwInit, sortDesc, insDesc,
      instC2, DC2, matD, plainNode, List.range', List.foldl_cons, List.foldl_nil,
      List.filter_cons, List.filter_nil, List.flatMap_cons, List.flatMap_nil,
      List.filterMap_cons, List.filterMap_nil]
  · norm_num [route_demand, nodeAt, VRPInstance.all_nodes, instC2, plainNode,
      List.getD]

/-- Witness for `c2_overdemand_silently_routed` at the C2 instance. -/
theorem c2_overdemand_silently_routed_witness :
    [0, 1, 0] ∈ cw_alive instC2 DC2 ∧
    instC2.vehicle_capacity < route_demand [0, 1, 0] instC2.all_nodes :=
  ⟨(c2_overdemand_silently_routed instC2 DC2 1 (by norm_num)
      (by norm_num [instC2]) (by decide) (by decide)).1,
   (c2_overdemand_silently_routed instC2 DC2 1 (by norm_num)
      (by norm_num [instC2]) (by decide) (by decide)).2.1⟩

/-- Instance for C3: two unit-demand customers, capacity 1 (no merge
possible), vehicle limit 1. -/
def instC3 : VRPInstance :=
  ⟨plainNode 0 0 0, [plainNode 1 1 1, plainNode 2 2 1], 1, 1, 0, 0⟩

/-- Distances for C3/witness (coordinates 0, 1, 2 on the line). -/
def DC3 (i j : ℕ) : ℚ := matD [[0, 1, 2], [1, 0, 1], [2, 1, 0]] i j

/-- C3 (counterexample): with two unmergeable customers and one vehicle,
the vehicle-limit truncation drops customer 2 entirely: it appears in no
route of the returned solution. -/
theorem c3_truncation_drops_customer :
    clarke_wright instC3 DC3 = [[0, 1, 0]] ∧
    countAll 2 (clarke_wright instC3 DC3) = 0 := by
  have heval : clarke_wright instC3 DC3 = [[0, 1, 0]] := by
    norm_num [clarke_wright, cw_alive, savingsList, cwInit, sortDesc, insDesc,
      cwStep, cwMerge, cwNewRoute, cwOrientI, cwOrientJ, feasible_merge,
      route_demand, nodeAt, VRPInstance.all_nodes,
      instC3, DC3, matD, plainNode, List.range', List.foldl_cons, List.foldl_nil,
      List.filter_cons, List.filter_nil, List.flatMap_cons, List.flatMap_nil,
      List.filterMap_cons, List.filterMap_nil, List.getD]
  refine ⟨heval, ?_⟩
  rw [heval]
  decide

/-- C3 (amended): construction yields every customer exactly once whenever
the surviving route count is within the vehicle limit (the truncation
branch, when taken, drops whole routes of customers); a relocate pass, a
2-opt pass, and annealing each preserve the per-stop occurrence counts of
their input solution. -/
theorem c3_partition_amended :
    (∀ (inst : VRPInstance) (D : ℕ → ℕ → ℚ),
      (cw_alive inst D).length ≤ inst.num_vehicles →
      ∀ c, 1 ≤ c → c ≤ inst.customers.length →
        countAll c (clarke_wright inst D) = 1) ∧
    (∀ (routes : List (List ℕ)) (inst : VRPInstance) (D : ℕ → ℕ → ℚ) (c : ℕ),
      countAll c (relocate_best_improvement routes inst D).1 = countAll c routes) ∧
    (∀ (routes : List (List ℕ)) (D : ℕ → ℕ → ℚ) (mp c : ℕ),
      countAll c (improve_two_opt_intra routes D mp).1 = countAll c routes) ∧
    (∀ (routes : List (List ℕ)) (inst : VRPInstance) (D : ℕ → ℕ → ℚ)
      (budget T0 alpha t0 : ℚ) (clock : ℕ → ℚ) (coin : ℕ → Bool) (fuel c : ℕ),
      countAll c (simulated_annealing routes inst D budget T0 alpha t0 clock
        coin fuel) = countAll c routes) :=
  ⟨cw_partition, relocate_countAll, twoOpt_countAll, sa_countAll⟩

/-- Instance for the C3/C4 witnesses: two mergeable unit-demand customers,
capacity 10, two vehicles. -/
def instW : VRPInstance :=
  ⟨plainNode 0 0 0, [plainNode 1 1 1, plainNode 2 2 1], 10, 2, 0, 0⟩

/-- Clarke-Wright on the witness instance merges both customers into one
route. -/
theorem cw_instW_eval : cw_alive instW DC3 = [[0, 1, 2, 0]] := by
  norm_num [cw_alive, savingsList, cwInit, sortDesc, insDesc,
    cwStep, cwMerge, cwNewRoute, cwOrientI, cwOrientJ, feasible_merge,
    route_demand, nodeAt, VRPInstance.all_nodes,
    instW, DC3, matD, plainNode, List.range', List.foldl_cons, List.foldl_nil,
    List.filter_cons, List.filter_nil, List.flatMap_cons, List.flatMap_nil,
    List.filterMap_cons, List.filterMap_nil, List.getD]

/-- Witness for `c3_partition_amended` at concrete inputs. -/
theorem c3_partition_amended_witness :
    countAll 1 (clarke_wright instW DC3) = 1 ∧
    countAll 1 (relocate_best_improvement [[0, 1, 0], [0, 2, 0]] instC1 DC1).1
      = countAll 1 [[0, 1, 0], [0, 2, 0]] ∧
    countAll 1 (improve_two_opt_intra [[0, 1, 0]] DC1 1).1
      = countAll 1 [[0, 1, 0]] ∧
    countAll 1 (simulated_annealing [[0, 1, 0]] instC1 DC1 0 1 1 0
      (fun _ => 0) (fun _ => false) 3) = countAll 1 [[0, 1, 0]] :=
  ⟨c3_partition_amended.1 instW DC3 (by rw [cw_instW_eval]; norm_num [instW])
      1 (by norm_num) (by norm_num [instW]),
   c3_partition_amended.2.1 [[0, 1, 0], [0, 2, 0]] instC1 DC1 1,
   c3_partition_amended.2.2.1 [[0, 1, 0]] DC1 1 1,
   c3_partition_amended.2.2.2 [[0, 1, 0]] instC1 DC1 0 1 1 0
     (fun _ => 0) (fun _ => false) 3 1⟩

/-- Instance for C4: four customers on the line at 100, 1, 2, 101 with
demands -5, 10, 5, 1 (all at most the capacity 10, one negative). -/
def instC4 : VRPInstance :=
  ⟨plainNode 0 0 0,
   [plainNode 1 100 (-5), plainNode 2 1 10, plainNode 3 2 5, plainNode 4 101 1],
   10, 5, 0, 0⟩

/-- Distances for C4 (coordinates 0, 100, 1, 2, 101 on the line). -/
def DC4 (i j : ℕ) : ℚ :=
  matD [[0, 100, 1, 2, 101],
        [100, 0, 99, 98, 1],
        [1, 99, 0, 1, 100],
        [2, 98, 1, 0, 99],
        [101, 1, 100, 99, 0]] i j

/-- The C4 input solution. -/
def routesC4 : List (List ℕ) := [[0, 1, 2, 3, 0], [0, 4, 0]]

/-- C4 (counterexample): all demands are at most the capacity and both
input routes fit it; the relocate pass moves the negative-demand customer 1
out of route A (its capacity check only looks at the target route), leaving
route `[0, 2, 3, 0]` with load 15 > 10. -/
theorem c4_negative_demand_breaks_capacity :
    (∀ n ∈ instC4.customers, n.demand ≤ instC4.vehicle_capacity) ∧
    (∀ r ∈ routesC4, route_demand r instC4.all_nodes ≤ instC4.vehicle_capacity) ∧
    (relocate_best_improvement routesC4 instC4 DC4).1
      = [[0, 2, 3, 0], [0, 1, 4, 0]] ∧
    instC4.vehicle_capacity < route_demand [0, 2, 3, 0] instC4.all_nodes := by
  refine ⟨by decide, by decide, ?_, by decide⟩
  norm_num [relocate_best_improvement, relocCandidates, relocBest, applyReloc,
    route_demand, nodeAt, VRPInstance.all_nodes, routesC4, instC4, DC4, matD,
    plainNode, List.range_succ, List.range', List.filterMap_cons,
    List.foldl_cons, List.foldl_nil, List.getD, List.insertIdx, List.eraseIdx,
    List.set, List.getElem_cons_succ, List.getElem_cons_zero]
  decide

/-- C4 (amended): with every demand nonnegative and at most the capacity,
construction, a relocate pass, a 2-opt pass, and annealing all return
solutions whose route loads are within the capacity. -/
theorem c4_capacity_amended :
    (∀ (inst : VRPInstance) (D : ℕ → ℕ → ℚ),
      (∀ n ∈ inst.all_nodes, 0 ≤ n.demand) →
      (∀ n ∈ inst.customers, n.demand ≤ inst.vehicle_capacity) →
      ∀ r ∈ clarke_wright inst D,
        route_demand r inst.all_nodes ≤ inst.vehicle_capacity) ∧
    (∀ (routes : List (List ℕ)) (inst : VRPInstance) (D : ℕ → ℕ → ℚ),
      (∀ n ∈ inst.all_nodes, 0 ≤ n.demand) →
      (∀ r ∈ routes, route_demand r inst.all_nodes ≤ inst.vehicle_capacity) →
      ∀ r ∈ (relocate_best_improvement routes inst D).1,
        route_demand r inst.all_nodes ≤ inst.vehicle_capacity) ∧
    (∀ (routes : List (List ℕ)) (D : ℕ → ℕ → ℚ) (mp : ℕ) (nodes : List Node)
      (cap : ℤ), (∀ r ∈ routes, route_demand r nodes ≤ cap) →
      ∀ r ∈ (improve_two_opt_intra routes D mp).1, route_demand r nodes ≤ cap) ∧
    (∀ (routes : List (List ℕ)) (inst : VRPInstance) (D : ℕ → ℕ → ℚ)
      (budget T0 alpha t0 : ℚ) (clock : ℕ → ℚ) (coin : ℕ → Bool) (fuel : ℕ),
      (∀ n ∈ inst.all_nodes, 0 ≤ n.demand) →
      (∀ r ∈ routes, route_demand r inst.all_nodes ≤ inst.vehicle_capacity) →
      ∀ r ∈ simulated_annealing routes inst D budget T0 alpha t0 clock coin fuel,
        route_demand r inst.all_nodes ≤ inst.vehicle_capacity) :=
  ⟨cw_loads, relocate_loads, twoOpt_loads, sa_loads⟩

/-- Witness for `c4_capacity_amended` at concrete inputs. -/
theorem c4_capacity_amended_witness :
    route_demand [0, 1, 2, 0] instW.all_nodes ≤ instW.vehicle_capacity ∧
    route_demand [0, 1, 0] instC1.all_nodes ≤ instC1.vehicle_capacity ∧
    route_demand [0, 1, 0] instC1.all_nodes ≤ instC1.vehicle_capacity ∧
    route_demand [0, 1, 0] instC1.all_nodes ≤ instC1.vehicle_capacity := by
  have h1 : clarke_wright instW DC3 = [[0, 1, 2, 0]] := by
    rw [clarke_wright, cw_instW_eval]
    norm_num [instW]
  have h2 : (relocate_best_improvement [[0, 1, 0]] instC1 DC1).1 = [[0, 1, 0]] := by
    norm_num [relocate_best_improvement, relocCandidates, relocBest,
      List.range_succ, List.range', List.flatMap_cons, List.flatMap_nil,
      List.foldl_nil]
  have h3 : (improve_two_opt_intra [[0, 1, 0]] DC1 1).1 = [[0, 1, 0]] := by
    norm_num [improve_two_opt_intra, twoOptLoop, twoOptPassRoute, twoOptBest,
      twoOptPairs, List.range', List.foldl_cons, List.foldl_nil]
  have h4 : simulated_annealing [[0, 1, 0]] instC1 DC1 0 1 1 0 (fun _ => 0)
      (fun _ => false) 3 = [[0, 1, 0]] := by
    norm_num [simulated_annealing, saLoop]
  exact ⟨c4_capacity_amended.1 instW DC3 (by decide) (by decide) _
      (by rw [h1]; exact List.mem_singleton.mpr rfl),
    c4_capacity_amended.2.1 [[0, 1, 0]] instC1 DC1 (by decide) (by decide) _
      (by rw [h2]; exact List.mem_singleton.mpr rfl),
    c4_capacity_amended.2.2.1 [[0, 1, 0]] DC1 1 instC1.all_nodes
      instC1.vehicle_capacity (by decide) _
      (by rw [h3]; exact List.mem_singleton.mpr rfl),
    c4_capacity_amended.2.2.2 [[0, 1, 0]] instC1 DC1 0 1 1 0 (fun _ => 0)
      (fun _ => false) 3 (by decide) (by decide) _
      (by rw [h4]; exact List.mem_singleton.mpr rfl)⟩

/-- Instance for C5: five unit-demand customers on the line at
1, 0, 7, 5, 7 with the depot at 0 (capacity slack). -/
def instC5 : VRPInstance :=
  ⟨plainNode 0 0 0,
   [plainNode 1 1 1, plainNode 2 0 1, plainNode 3 7 1, plainNode 4 5 1,
    plainNode 5 7 1], 100, 5, 0, 0⟩

/-- Distances for C5 (coordinates 0, 1, 0, 7, 5, 7 on the line). -/
def DC5 (i j : ℕ) : ℚ :=
  matD [[0, 1, 0, 7, 5, 7],
        [1, 0, 1, 6, 4, 6],
        [0, 1, 0, 7, 5, 7],
        [7, 6, 7, 0, 2, 0],
        [5, 4, 5, 2, 0, 2],
        [7, 6, 7, 0, 2, 0]] i j

/-- The 2-opt pass on the C5 route reverses the block `[3, 4]`. -/
theorem c5_twoopt_eval :
    (improve_two_opt_intra [[0, 1, 2, 3, 4, 5, 0]] DC5 1).1
      = [[0, 1, 2, 4, 3, 5, 0]] := by
  norm_num [improve_two_opt_intra, twoOptLoop, twoOptPassRoute, twoOptBest,
    twoOptPairs, two_opt_delta, apply_two_opt, DC5, matD,
    List.range', List.foldl_cons, List.foldl_nil, List.flatMap_cons,
    List.flatMap_nil, List.map_cons, List.map_nil, List.getD]

/-- The relocate pass then applies the same-route move `(ia, jb) = (1, 3)`
whose evaluated gain is 2, but the deletion shifts the indices and the
customer lands one slot further right: `[0, 2, 4, 1, 3, 5, 0]`. -/
theorem c5_reloc_eval :
    (relocate_best_improvement [[0, 1, 2, 4, 3, 5, 0]] instC5 DC5).1
      = [[0, 2, 4, 1, 3, 5, 0]] := by
  norm_num [relocate_best_improvement, relocCandidates, relocBest, applyReloc,
    route_demand, nodeAt, VRPInstance.all_nodes, instC5, DC5, matD, plainNode,
    List.range_succ, List.range', List.filterMap_cons, List.foldl_cons,
    List.foldl_nil, List.getD, List.insertIdx, List.eraseIdx, List.set,
    List.getElem_cons_succ, List.getElem_cons_zero, List.flatMap_cons,
    List.flatMap_nil]

/-- C5: one 2-opt pass followed by one relocate pass - the local-search
driver's step - RAISES the total cost of the C5 solution from 20 to 22: the
relocate move's evaluated gain (2) assumes insertion between the stops at
positions jb-1 and jb of the unmodified route, but after `del` the
insertion lands one slot further, so the applied move differs from the
evaluated one and costs more than doing nothing. -/
theorem c5_local_search_step_increases_cost :
    total_cost [[0, 1, 2, 3, 4, 5, 0]] instC5 DC5 = 20 ∧
    total_cost (relocate_best_improvement
        (improve_two_opt_intra [[0, 1, 2, 3, 4, 5, 0]] DC5 1).1
        instC5 DC5).1 instC5 DC5 = 22 := by
  rw [c5_twoopt_eval, c5_reloc_eval]
  constructor <;>
    norm_num [total_cost, route_distance, instC5, DC5, matD, plainNode,
      List.getD]

end VRP